import Mathlib

/-!
Verification of the grouping-and-streaming-statistics engine of
`rally/task/processing/plot.py` (class `Trends`): canonicalization of nested
configuration values (`_to_str`), identity hashing (`_make_hash`), incremental
folding of run results (`add_result`) and finalization (`get_data`).

Python values appearing in `key.kw` configurations are modelled by the nested
inductive `Value`; stat-table cells (numbers or sentinel strings such as
`"n/a"`) by `Cell`.  Machine floats are modelled by `ℚ`; Python exceptions by
`Except PyErr`.
-/

deriving instance DecidableEq for Except

/-- Exceptions that the modelled code can raise. -/
inductive PyErr where
  | typeError
  | keyError
  | indexError
  | attributeError
deriving DecidableEq, Repr

/-- A cell of the per-run stat table: a number (int/float) or a string
(e.g. the `"n/a"` sentinel, or a percentage-formatted success field). -/
inductive Cell where
  | num (q : ℚ)
  | str (s : String)
deriving DecidableEq, Repr

/-- A nested Python value as can occur in `key.kw`: `None`, a string, an
integer, a list/tuple, a dict (association list in insertion order), or a
value of any other type (rejected by `_to_str`). -/
inductive Value where
  | none
  | str (s : String)
  | int (n : Int)
  | vlist (vs : List Value)
  | vdict (ps : List (Value × Value))
  | other
deriving Repr

/-- Python `str.strip()`: remove leading and trailing whitespace. -/
def pyStrip (s : String) : String :=
  String.mk (((s.data.dropWhile Char.isWhitespace).reverse.dropWhile
    Char.isWhitespace).reverse)

/-- Python `str.rstrip("%")`: remove trailing `%` characters. -/
def rstripPercent (s : String) : String :=
  String.mk ((s.data.reverse.dropWhile (· == '%')).reverse)

/-- Decimal digits of a natural number, most significant first. -/
def natDigits (n : Nat) : List Char :=
  if h : n < 10 then [Char.ofNat (48 + n)]
  else natDigits (n / 10) ++ [Char.ofNat (48 + n % 10)]
decreasing_by exact Nat.div_lt_self (by omega) (by omega)

/-- Python `str(int)`: signed decimal rendering. -/
def pyStr (n : Int) : String :=
  if n < 0 then String.mk ('-' :: natDigits (-n).toNat)
  else String.mk (natDigits n.toNat)

/-- Lexicographic comparison of character lists by code point, the ordering
Python uses on `str`. -/
def charsLe : List Char → List Char → Bool
  | [], _ => true
  | _ :: _, [] => false
  | a :: as, b :: bs => if a < b then true else if b < a then false else charsLe as bs

/-- Strict lexicographic comparison of character lists by code point, the
ordering Python uses for `<` on `str`. -/
def charsLt : List Char → List Char → Bool
  | [], [] => false
  | [], _ :: _ => true
  | _ :: _, [] => false
  | a :: as, b :: bs => if a < b then true else if b < a then false else charsLt as bs

/-- Python `<=` on strings. -/
def strLeB (a b : String) : Bool := charsLe a.data b.data

/-- Sort a list of strings lexicographically (Python `sorted` on `str`),
with Python's stable insertion semantics. -/
def sortStrings (l : List String) : List String :=
  List.insertionSort (fun a b => strLeB a b = true) l

mutual

/-- Embedding of `Trends._to_str`: convert a value into its canonical string.
`None` renders to `"None"`, strings and ints to their stripped textual form,
lists to the sorted comma-join of their members' canonical strings, dicts to
the sorted pipe-join of `key:value` canonical pairs; any other type raises
`TypeError` (modelled as `Except.error ()`). -/
def to_str : Value → Except Unit String
  | Value.none => Except.ok "None"
  | Value.str s => Except.ok (pyStrip s)
  | Value.int n => Except.ok (pyStrip (pyStr n))
  | Value.vlist vs =>
      match listToStr vs with
      | Except.error e => Except.error e
      | Except.ok ss => Except.ok (String.intercalate "," (sortStrings ss))
  | Value.vdict ps =>
      match pairsToStr ps with
      | Except.error e => Except.error e
      | Except.ok ss => Except.ok (String.intercalate "|" (sortStrings ss))
  | Value.other => Except.error ()

/-- Canonical strings of the elements of a list (left to right). -/
def listToStr : List Value → Except Unit (List String)
  | [] => Except.ok []
  | v :: vs =>
      match to_str v with
      | Except.error e => Except.error e
      | Except.ok s =>
          match listToStr vs with
          | Except.error e => Except.error e
          | Except.ok ss => Except.ok (s :: ss)

/-- Canonical `key:value` strings of the entries of a dict (left to right). -/
def pairsToStr : List (Value × Value) → Except Unit (List String)
  | [] => Except.ok []
  | (k, v) :: ps =>
      match to_str k with
      | Except.error e => Except.error e
      | Except.ok ks =>
          match to_str v with
          | Except.error e => Except.error e
          | Except.ok vs =>
              match pairsToStr ps with
              | Except.error e => Except.error e
              | Except.ok ss => Except.ok ((ks ++ ":" ++ vs) :: ss)

end

/-- Modelled from the spec: `hashlib.md5(...).hexdigest()` is an external
library call; only its determinism as a function of the canonical string is
relied upon here, so the content hash is modelled by the canonical string
itself. -/
def md5hexdigest (s : String) : String := s

/-- Embedding of `Trends._make_hash`: the grouping key of a value, a content
hash of its canonical string; `TypeError` from `_to_str` propagates. -/
def make_hash (v : Value) : Except PyErr String :=
  match to_str v with
  | Except.error _ => Except.error PyErr.typeError
  | Except.ok s => Except.ok (md5hexdigest s)

mutual

/-- Does a value contain (at any depth) a value of unsupported type? -/
def hasOther : Value → Bool
  | Value.none => false
  | Value.str _ => false
  | Value.int _ => false
  | Value.vlist vs => listHasOther vs
  | Value.vdict ps => pairsHasOther ps
  | Value.other => true

/-- Does some element of the list contain an unsupported value? -/
def listHasOther : List Value → Bool
  | [] => false
  | v :: vs => hasOther v || listHasOther vs

/-- Does some key or value of the dict contain an unsupported value? -/
def pairsHasOther : List (Value × Value) → Bool
  | [] => false
  | (k, v) :: ps => hasOther k || hasOther v || pairsHasOther ps

end

mutual

/-- Modelled from the spec: `json.dumps(kw, indent=2)` (external library), the
human-readable serialization stored as the group's `config`, independent from
the grouping canonical form.  Modelled as a plain JSON-like printer. -/
def jsonDumps : Value → String
  | Value.none => "null"
  | Value.str s => "\"" ++ s ++ "\""
  | Value.int n => pyStr n
  | Value.vlist vs => "[" ++ jsonDumpsList vs ++ "]"
  | Value.vdict ps => "\x7b" ++ jsonDumpsPairs ps ++ "\x7d"
  | Value.other => "?"

/-- Serialization of list elements, comma separated. -/
def jsonDumpsList : List Value → String
  | [] => ""
  | [v] => jsonDumps v
  | v :: vs => jsonDumps v ++ ", " ++ jsonDumpsList vs

/-- Serialization of dict entries, comma separated. -/
def jsonDumpsPairs : List (Value × Value) → String
  | [] => ""
  | [(k, v)] => jsonDumps k ++ ": " ++ jsonDumps v
  | (k, v) :: ps => jsonDumps k ++ ": " ++ jsonDumps v ++ ", " ++ jsonDumpsPairs ps

end

/-- Association-list lookup, modelling Python `d[k]` / `k in d` on a dict kept
in insertion order. -/
def alookup {α β : Type} [DecidableEq α] : List (α × β) → α → Option β
  | [], _ => Option.none
  | (k, v) :: rest, a => if k = a then some v else alookup rest a

/-- Association-list assignment `d[a] = b`: replace the value in place if the
key exists (keeping its position, as Python dicts do), else append at the
end. -/
def aupdate {α β : Type} [DecidableEq α] : List (α × β) → α → β → List (α × β)
  | [], a, b => [(a, b)]
  | (k, v) :: rest, a, b =>
      if k = a then (a, b) :: rest else (k, v) :: aupdate rest a b

/-- Apply `f` to the value stored at key `a` (no change if absent). -/
def amodify {α β : Type} [DecidableEq α] : List (α × β) → α → (β → β) → List (α × β)
  | [], _, _ => []
  | (k, v) :: rest, a, f =>
      if k = a then (k, f v) :: rest else (k, v) :: amodify rest a f

/-- Are all characters decimal digits? -/
def digitsOk (cs : List Char) : Bool := cs.all Char.isDigit

/-- Value of a string of decimal digits. -/
def digitsNat (cs : List Char) : Nat :=
  cs.foldl (fun n c => 10 * n + (c.toNat - 48)) 0

/-- Parse an unsigned decimal-notation number (digits with an optional single
decimal point; at least one digit overall). -/
def pyFloatCore (cs : List Char) : Option ℚ :=
  let intPart := cs.takeWhile (· ≠ '.')
  match cs.dropWhile (· ≠ '.') with
  | [] =>
      if intPart ≠ [] ∧ digitsOk intPart then some (digitsNat intPart) else Option.none
  | _ :: frac =>
      if '.' ∈ frac then Option.none
      else if intPart = [] ∧ frac = [] then Option.none
      else if digitsOk intPart ∧ digitsOk frac then
        some (mkRat (digitsNat intPart * 10 ^ frac.length + digitsNat frac)
          (10 ^ frac.length))
      else Option.none

/-- Modelled from the spec: the Python builtin `float(str)` (external), which
parses a decimal number allowing surrounding whitespace and a sign, raising
`ValueError` (here `Option.none`) otherwise.  Scientific notation and
infinities are not exercised by this code's inputs and are omitted. -/
def pyFloat (s : String) : Option ℚ :=
  match (pyStrip s).data with
  | '-' :: rest => (pyFloatCore rest).map (fun q => -q)
  | '+' :: rest => pyFloatCore rest
  | cs => pyFloatCore cs

/-- Multiplication of rationals by cross-multiplication and normalization.
Batteries marks `Rat.mul` irreducible, which blocks kernel evaluation in
witnesses, so the model uses this definitionally evaluable equal (see
`qmul_eq_mul`). -/
def qmul (a b : ℚ) : ℚ := mkRat (a.num * b.num) (a.den * b.den)

/-- Addition of rationals by cross-multiplication, evaluable equal of
`Rat.add` (see `qadd_eq_add`). -/
def qadd (a b : ℚ) : ℚ := mkRat (a.num * b.den + b.num * a.den) (a.den * b.den)

/-- Sum of a list of rationals. -/
def qsum (l : List ℚ) : ℚ := l.foldl qadd 0

/-- The smaller of two rationals, by the evaluable comparison `Rat.blt`. -/
def qmin (a b : ℚ) : ℚ := if Rat.blt a b then a else b

/-- The larger of two rationals, by the evaluable comparison `Rat.blt`. -/
def qmax (a b : ℚ) : ℚ := if Rat.blt a b then b else a

/-- Accumulating helper for `splitDot`. -/
def splitDotAux (acc : List Char) : List Char → List (List Char)
  | [] => [acc.reverse]
  | c :: rest =>
      if c = '.' then acc.reverse :: splitDotAux [] rest
      else splitDotAux (c :: acc) rest

/-- Python `name.split(".")`: the pieces of the string between `.`
separators (always at least one piece). -/
def splitDot (s : String) : List String :=
  (splitDotAux [] s.data).map String.mk

/-- Python `int(q)` on a float: truncation toward zero (T-division of the
numerator by the positive denominator). -/
def pyInt (q : ℚ) : Int := Int.tdiv q.num q.den

/-- One SLA entry of a run result. -/
structure SlaEntry where
  success : Bool
deriving DecidableEq, Repr

/-- The `info.stat` table of a run result: column names and rows; in each row
the first cell is the action name. -/
structure StatTable where
  cols : List String
  rows : List (List Cell)
deriving DecidableEq, Repr

/-- The `info` part of a run result. -/
structure ResInfo where
  stat : StatTable
  tstamp_start : ℚ
deriving DecidableEq, Repr

/-- The `key` part of a run result. -/
structure ResKey where
  name : String
  kw : Value
deriving Repr

/-- One workload run result, as consumed by `Trends.add_result`. -/
structure RunResult where
  key : ResKey
  info : ResInfo
  sla : List SlaEntry
deriving Repr

namespace Trends

/-- The accumulated time series of one action inside a group: the six duration
series (created together, keyed `min`, `median`, `90%ile`, `95%ile`, `max`,
`avg`) and the success series. -/
structure ActionData where
  dmin : List (Int × Cell)
  dmedian : List (Int × Cell)
  d90ile : List (Int × Cell)
  d95ile : List (Int × Cell)
  dmax : List (Int × Cell)
  davg : List (Int × Cell)
  success : List (Int × ℚ)
deriving DecidableEq, Repr

/-- A freshly created action entry: all series empty. -/
def ActionData.empty : ActionData := ⟨[], [], [], [], [], [], []⟩

/-- One group of runs sharing a grouping key, as stored in `Trends._data`. -/
structure Group where
  actions : List (Cell × ActionData)
  sla_failures : Nat
  name : String
  config : String
deriving DecidableEq, Repr

/-- The state `Trends._data`: groups keyed by their hash, in insertion
order. -/
abbrev Data := List (String × Group)

end Trends

namespace Trends

/-- The inner dict of one stat row: `dict(zip(cols, row))`. -/
def rowDict (cols : List String) (row : List Cell) : List (String × Cell) :=
  (List.zip cols row).foldl (fun d kv => aupdate d kv.1 kv.2) []

/-- Marker for the recursion building the stat-table dict
`{row[0]: dict(zip(cols, row)) for row in rows}`; `row[0]` on an empty row
raises `IndexError`. -/
def buildStatAux (cols : List String) (acc : List (Cell × List (String × Cell))) :
    List (List Cell) → Except PyErr (List (Cell × List (String × Cell)))
  | [] => Except.ok acc
  | row :: rest =>
      match row with
      | [] => Except.error PyErr.indexError
      | c :: _ => buildStatAux cols (aupdate acc c (rowDict cols row)) rest

/-- The per-action statistic table of one run result. -/
def buildStat (cols : List String) (rows : List (List Cell)) :
    Except PyErr (List (Cell × List (String × Cell))) :=
  buildStatAux cols [] rows

/-- Python `stat[action][col]`: `KeyError` when the column is absent. -/
def lookCol (rd : List (String × Cell)) (c : String) : Except PyErr Cell :=
  match alookup rd c with
  | Option.none => Except.error PyErr.keyError
  | some v => Except.ok v

/-- Embedding of `float(stat[action]["Success"].rstrip("%"))` with its
`except ValueError: success = 0` handler.  A non-string cell has no `rstrip`
and raises `AttributeError`, which the handler does not catch. -/
def successValue (rd : List (String × Cell)) : Except PyErr ℚ :=
  match lookCol rd "Success" with
  | Except.error e => Except.error e
  | Except.ok (Cell.num _) => Except.error PyErr.attributeError
  | Except.ok (Cell.str s) =>
      match pyFloat (rstripPercent s) with
      | some q => Except.ok q
      | Option.none => Except.ok 0

/-- Append one run's row of an action: the `(ts, success)` sample and the six
`(ts, value)` duration samples, each read from its named column. -/
def appendRow (ts : Int) (rd : List (String × Cell)) (ad : ActionData) :
    Except PyErr ActionData :=
  match successValue rd with
  | Except.error e => Except.error e
  | Except.ok sv =>
  match lookCol rd "Min (sec)" with
  | Except.error e => Except.error e
  | Except.ok v1 =>
  match lookCol rd "Median (sec)" with
  | Except.error e => Except.error e
  | Except.ok v2 =>
  match lookCol rd "90%ile (sec)" with
  | Except.error e => Except.error e
  | Except.ok v3 =>
  match lookCol rd "95%ile (sec)" with
  | Except.error e => Except.error e
  | Except.ok v4 =>
  match lookCol rd "Max (sec)" with
  | Except.error e => Except.error e
  | Except.ok v5 =>
  match lookCol rd "Avg (sec)" with
  | Except.error e => Except.error e
  | Except.ok v6 =>
  Except.ok { dmin := ad.dmin ++ [(ts, v1)], dmedian := ad.dmedian ++ [(ts, v2)],
              d90ile := ad.d90ile ++ [(ts, v3)], d95ile := ad.d95ile ++ [(ts, v4)],
              dmax := ad.dmax ++ [(ts, v5)], davg := ad.davg ++ [(ts, v6)],
              success := ad.success ++ [(ts, sv)] }

/-- One iteration of the `for action in stat` loop: lazily create the action's
series on first sight, then append this run's samples. -/
def processAction (ts : Int) (acts : List (Cell × ActionData)) (a : Cell)
    (rd : List (String × Cell)) : Except PyErr (List (Cell × ActionData)) :=
  let acts1 := match alookup acts a with
    | Option.none => aupdate acts a ActionData.empty
    | some _ => acts
  let ad := (alookup acts1 a).getD ActionData.empty
  match appendRow ts rd ad with
  | Except.error e => Except.error e
  | Except.ok ad2 => Except.ok (aupdate acts1 a ad2)

/-- The whole `for action in stat` loop, in the table's insertion order. -/
def processActions (ts : Int) :
    List (Cell × List (String × Cell)) → List (Cell × ActionData) →
    Except PyErr (List (Cell × ActionData))
  | [], acts => Except.ok acts
  | (a, rd) :: rest, acts =>
      match processAction ts acts a rd with
      | Except.error e => Except.error e
      | Except.ok acts2 => processActions ts rest acts2

/-- Number of SLA entries whose `success` is false (the amount added to
`sla_failures` by the `for sla in result["sla"]` loop). -/
def slaFailCount (sla : List SlaEntry) : Nat :=
  (sla.filter (fun s => !s.success)).length

/-- Embedding of `Trends.add_result`: hash the configuration, create the group
on first sight, count SLA failures, build the stat table and append this
run's samples to every listed action's series. -/
def add_result (st : Data) (result : RunResult) : Except PyErr Data :=
  match make_hash result.key.kw with
  | Except.error e => Except.error e
  | Except.ok key =>
  let st1 : Data := match alookup st key with
    | Option.none => aupdate st key
        { actions := [], sla_failures := 0, name := result.key.name,
          config := jsonDumps result.key.kw }
    | some _ => st
  let st2 : Data := amodify st1 key
    (fun g => { g with sla_failures := g.sla_failures + slaFailCount result.sla })
  match buildStat result.info.stat.cols result.info.stat.rows with
  | Except.error e => Except.error e
  | Except.ok tbl =>
  let ts : Int := pyInt (qmul result.info.tstamp_start 1000)
  match alookup st2 key with
  | Option.none => Except.error PyErr.keyError
  | some g =>
      match processActions ts tbl g.actions with
      | Except.error e => Except.error e
      | Except.ok acts =>
          Except.ok (amodify st2 key (fun g2 => { g2 with actions := acts }))

/-- Python `<` between two stat cells: numbers compare numerically, strings
lexicographically, and comparing a number with a string raises `TypeError`. -/
def cellLt : Cell → Cell → Except PyErr Bool
  | Cell.num a, Cell.num b => Except.ok (decide (a < b))
  | Cell.str a, Cell.str b => Except.ok (charsLt a.data b.data)
  | _, _ => Except.error PyErr.typeError

/-- Python `<` between two `(timestamp, value)` tuples: compare timestamps
first; only on equal timestamps are the values compared. -/
def pairLt (p q : Int × Cell) : Except PyErr Bool :=
  if p.1 = q.1 then cellLt p.2 q.2 else Except.ok (decide (p.1 < q.1))

/-- Stable insertion of an earlier element into the sorted list of later
elements: it goes before the first element not smaller than it. -/
def insertPairE (a : Int × Cell) : List (Int × Cell) → Except PyErr (List (Int × Cell))
  | [] => Except.ok [a]
  | b :: rest =>
      match pairLt b a with
      | Except.error e => Except.error e
      | Except.ok true =>
          match insertPairE a rest with
          | Except.error e => Except.error e
          | Except.ok out => Except.ok (b :: out)
      | Except.ok false => Except.ok (a :: b :: rest)

/-- Python `sorted` on a duration series: a stable comparison sort on
`(timestamp, value)` tuples; comparing a number with a string value at equal
timestamps raises `TypeError`. -/
def sortPairsE : List (Int × Cell) → Except PyErr (List (Int × Cell))
  | [] => Except.ok []
  | a :: rest =>
      match sortPairsE rest with
      | Except.error e => Except.error e
      | Except.ok out => insertPairE a out

/-- Python `<` between two `(timestamp, percent)` tuples of a success series
(always numeric, so never raising). -/
def spairLt (p q : Int × ℚ) : Bool :=
  decide (p.1 < q.1) || (decide (p.1 = q.1) && decide (p.2 < q.2))

/-- Stable insertion for success-series sorting. -/
def insertSucc (a : Int × ℚ) : List (Int × ℚ) → List (Int × ℚ)
  | [] => [a]
  | b :: rest => if spairLt b a then b :: insertSucc a rest else a :: b :: rest

/-- Python `sorted` on a success series. -/
def sortSucc : List (Int × ℚ) → List (Int × ℚ)
  | [] => []
  | a :: rest => insertSucc a (sortSucc rest)

/-- The items of an action's `durations` dict, in insertion order. -/
def durationsList (ad : ActionData) : List (String × List (Int × Cell)) :=
  [("min", ad.dmin), ("median", ad.dmedian), ("90%ile", ad.d90ile),
   ("95%ile", ad.d95ile), ("max", ad.dmax), ("avg", ad.davg)]

/-- Sorting of each series of a durations item list, keeping keys. -/
def sortDursList : List (String × List (Int × Cell)) →
    Except PyErr (List (String × List (Int × Cell)))
  | [] => Except.ok []
  | (k, v) :: rest =>
      match sortPairsE v with
      | Except.error e => Except.error e
      | Except.ok v2 =>
          match sortDursList rest with
          | Except.error e => Except.error e
          | Except.ok rest2 => Except.ok ((k, v2) :: rest2)

/-- `[(k, sorted(v)) for k, v in data["durations"].items()]`. -/
def sortedDurs (ad : ActionData) : Except PyErr (List (String × List (Int × Cell))) :=
  sortDursList (durationsList ad)

/-- One non-total entry of a trend's `actions` list. -/
structure TrendAction where
  name : Cell
  durations : List (String × List (Int × Cell))
  success : List (String × List (Int × ℚ))
deriving DecidableEq, Repr

/-- One rendered group emitted by `get_data`. -/
structure Trend where
  stat_min : Option ℚ
  stat_max : Option ℚ
  stat_avg : Option ℚ
  name : String
  cls : String
  met : String
  sla_failures : Nat
  config : String
  actions : List TrendAction
  length : Nat
  durations : List (String × List (Int × Cell))
  success : List (String × List (Int × ℚ))
deriving DecidableEq, Repr

/-- The group-level fields set by the `"total"` branch of the action loop:
`length`, `durations` and `success`. -/
abbrev TotalPart :=
  Nat × List (String × List (Int × Cell)) × List (String × List (Int × ℚ))

/-- The `for action, data in wload["actions"].items()` loop of `get_data`:
non-total actions are collected in encounter order, the distinguished
`"total"` action fills the group-level fields (a later occurrence would
overwrite an earlier one, as Python `dict.update` does). -/
def processActionsOut : List (Cell × ActionData) →
    Except PyErr (List TrendAction × Option TotalPart)
  | [] => Except.ok ([], Option.none)
  | (a, data) :: rest =>
      match sortedDurs data with
      | Except.error e => Except.error e
      | Except.ok adurs =>
      let succ := [("success", sortSucc data.success)]
      match processActionsOut rest with
      | Except.error e => Except.error e
      | Except.ok (acts, tot) =>
      if a = Cell.str "total" then
        Except.ok (acts, match tot with
          | some t => some t
          | Option.none => some (data.success.length, adurs, succ))
      else
        Except.ok (⟨a, adurs, succ⟩ :: acts, tot)

/-- Modelled from the spec: `charts.streaming.MinComputation` (module not
under the sources provided): the smallest sample seen, or no result when no
samples were added. -/
def listMin (l : List ℚ) : Option ℚ :=
  l.foldl (fun acc x => match acc with
    | Option.none => some x
    | some m => some (qmin m x)) Option.none

/-- Modelled from the spec: `charts.streaming.MaxComputation` (module not
under the sources provided): the largest sample seen, or no result when no
samples were added. -/
def listMax (l : List ℚ) : Option ℚ :=
  l.foldl (fun acc x => match acc with
    | Option.none => some x
    | some m => some (qmax m x)) Option.none

/-- Modelled from the spec: `charts.streaming.MeanComputation` (module not
under the sources provided): the arithmetic mean of the samples seen, or no
result when no samples were added. -/
def listMean (l : List ℚ) : Option ℚ :=
  match l with
  | [] => Option.none
  | _ => some (mkRat (qsum l).num ((qsum l).den * l.length))

/-- The numeric value of a cell, if any (`isinstance(i[1], (float, int))`). -/
def cellNum : Cell → Option ℚ
  | Cell.num q => some q
  | Cell.str _ => Option.none

/-- All numeric samples of the group-level duration series, in iteration
order; non-numeric entries are skipped. -/
def statSamples (durs : List (String × List (Int × Cell))) : List ℚ :=
  durs.foldl (fun acc kv => acc ++ kv.2.filterMap (fun i => cellNum i.2)) []

/-- Conversion of one group into its trend record: split the name into
`cls`/`met` (raising `IndexError` when there is no `"."`), process the
actions, then require the group-level `durations` (raising `KeyError` when no
`"total"` action was ever folded) and reduce its numeric samples. -/
def processGroup (g : Group) : Except PyErr Trend :=
  let cls := (splitDot g.name).headD ""
  match (splitDot g.name).get? 1 with
  | Option.none => Except.error PyErr.indexError
  | some met =>
  match processActionsOut g.actions with
  | Except.error e => Except.error e
  | Except.ok (acts, tot) =>
  match tot with
  | Option.none => Except.error PyErr.keyError
  | some (len, durs, succ) =>
      let samples := statSamples durs
      Except.ok { stat_min := listMin samples, stat_max := listMax samples,
                  stat_avg := listMean samples, name := g.name, cls := cls,
                  met := met, sla_failures := g.sla_failures, config := g.config,
                  actions := acts, length := len, durations := durs, success := succ }

/-- Strict name comparison between two trends. -/
def trendLtName (t u : Trend) : Bool := charsLt t.name.data u.name.data

/-- Stable insertion for name-sorting the trends. -/
def insertTrend (t : Trend) : List Trend → List Trend
  | [] => [t]
  | u :: rest => if trendLtName u t then u :: insertTrend t rest else t :: u :: rest

/-- `sorted(trends, key=lambda i: i["name"])`. -/
def sortTrends : List Trend → List Trend
  | [] => []
  | t :: rest => insertTrend t (sortTrends rest)

/-- Conversion of every group of the state, in insertion order. -/
def processGroups : Data → Except PyErr (List Trend)
  | [] => Except.ok []
  | (_, g) :: rest =>
      match processGroup g with
      | Except.error e => Except.error e
      | Except.ok t =>
          match processGroups rest with
          | Except.error e => Except.error e
          | Except.ok ts => Except.ok (t :: ts)

/-- Embedding of `Trends.get_data`: convert every group in insertion order and
emit the list sorted by name. -/
def get_data (st : Data) : Except PyErr (List Trend) :=
  match processGroups st with
  | Except.error e => Except.error e
  | Except.ok ts => Except.ok (sortTrends ts)

end Trends

/-! ### Definitions for claims, scenarios and witnesses -/
/-- Structural equality of two values up to permutation of list elements and
of dict key order, at any depth: the congruence closure of element
permutation. -/
inductive PermEq : Value → Value → Prop where
  | refl (v : Value) : PermEq v v
  | symm {a b : Value} : PermEq a b → PermEq b a
  | trans {a b c : Value} : PermEq a b → PermEq b c → PermEq a c
  | list_perm {vs ws : List Value} : vs.Perm ws →
      PermEq (Value.vlist vs) (Value.vlist ws)
  | dict_perm {ps qs : List (Value × Value)} : ps.Perm qs →
      PermEq (Value.vdict ps) (Value.vdict qs)
  | list_head {v w : Value} (vs : List Value) : PermEq v w →
      PermEq (Value.vlist (v :: vs)) (Value.vlist (w :: vs))
  | dict_key {k k2 : Value} (v : Value) (ps : List (Value × Value)) : PermEq k k2 →
      PermEq (Value.vdict ((k, v) :: ps)) (Value.vdict ((k2, v) :: ps))
  | dict_val {v v2 : Value} (k : Value) (ps : List (Value × Value)) : PermEq v v2 →
      PermEq (Value.vdict ((k, v) :: ps)) (Value.vdict ((k, v2) :: ps))

/-- The constructor class of a value, preserved by `PermEq`. -/
def Value.kind : Value → Nat
  | Value.none => 0
  | Value.str _ => 1
  | Value.int _ => 2
  | Value.vlist _ => 3
  | Value.vdict _ => 4
  | Value.other => 5

/-- Relation between two canonicalization results: both fail, or both succeed
with string lists that are permutations of each other. -/
def exceptPerm : Except Unit (List String) → Except Unit (List String) → Prop
  | Except.ok a, Except.ok b => a.Perm b
  | Except.error _, Except.error _ => True
  | _, _ => False

/-- The state after group creation and SLA counting, before the action loop. -/
def Trends.midState (st : Trends.Data) (r : RunResult) (key : String) : Trends.Data :=
  amodify
    (match alookup st key with
      | Option.none => aupdate st key
          { actions := [], sla_failures := 0, name := r.key.name,
            config := jsonDumps r.key.kw }
      | some _ => st)
    key
    (fun g => { g with sla_failures := g.sla_failures + Trends.slaFailCount r.sla })

/-- A minimal run result with no stat rows, used for the SLA-counting
scenario. -/
def slaRes (sl : List Bool) : RunResult :=
  { key := { name := "a.b", kw := Value.none },
    info := { stat := { cols := [], rows := [] }, tstamp_start := 1 },
    sla := sl.map (fun b => { success := b }) }

/-- The spec's SLA scenario: three folds with sla `[T]`, `[F]`, `[F, T]` into
the same group, then the group's `sla_failures`. -/
def slaScenario : Except PyErr (Option Nat) :=
  Except.bind (Trends.add_result [] (slaRes [true])) (fun s1 =>
    Except.bind (Trends.add_result s1 (slaRes [false])) (fun s2 =>
      Except.bind (Trends.add_result s2 (slaRes [false, true])) (fun s3 =>
        Except.ok ((alookup s3 "None").map Trends.Group.sla_failures))))

/-- The state after the first two folds of the SLA scenario. -/
def slaSt2 : Trends.Data :=
  match Except.bind (Trends.add_result [] (slaRes [true])) (fun s1 =>
      Trends.add_result s1 (slaRes [false])) with
  | Except.ok s => s
  | Except.error _ => []

/-- The state after all three folds of the SLA scenario. -/
def slaSt3 : Trends.Data :=
  match Trends.add_result slaSt2 (slaRes [false, true]) with
  | Except.ok s => s
  | Except.error _ => []

/-- The actions table of the group stored at `key` (empty when the group does
not exist yet). -/
def Trends.groupActions (st : Trends.Data) (key : String) : List (Cell × Trends.ActionData) :=
  match alookup st key with
  | some g0 => g0.actions
  | Option.none => []

/-- The series of action `a` in the group at `key` before a fold (all empty
when absent). -/
def Trends.actionBase (st : Trends.Data) (key : String) (a : Cell) : Trends.ActionData :=
  (alookup (Trends.groupActions st key) a).getD Trends.ActionData.empty

/-- A run result with a full stat table containing one `"total"` row. -/
def statRes (nm : String) (kw : Value) (t : ℚ) (succ : String) (mx : Cell) : RunResult :=
  { key := { name := nm, kw := kw },
    info := { stat := { cols := ["Action", "Min (sec)", "Median (sec)", "90%ile (sec)",
                                 "95%ile (sec)", "Max (sec)", "Avg (sec)", "Success"],
                        rows := [[Cell.str "total", Cell.num 1, Cell.num 2, Cell.num 3,
                                  Cell.num 4, mx, Cell.num 6, Cell.str succ]] },
              tstamp_start := t },
    sla := [] }

/-- The state after folding one full-stat run into the empty state. -/
def statSt1 : Trends.Data :=
  match Trends.add_result [] (statRes "a.b" (Value.str "cfg") 1 "2%" (Cell.num 5)) with
  | Except.ok s => s
  | Except.error _ => []

/-- Entry `p` does not compare strictly greater than entry `q` under Python's
tuple comparison: the guarantee between consecutive entries of a sorted
duration series. -/
def pairPyLe (p q : Int × Cell) : Prop := Trends.pairLt q p ≠ Except.ok true

/-- The same guarantee for success-series entries. -/
def spairPyLe (p q : Int × ℚ) : Prop := Trends.spairLt q p = false

/-- The state after folding two runs with identical configuration, identical
timestamps, and success values `2` then `1`. -/
def c3st : Trends.Data :=
  match Trends.add_result statSt1 (statRes "a.b" (Value.str "cfg") 1 "1%" (Cell.num 5)) with
  | Except.ok s => s
  | Except.error _ => []

/-- The finalized output of the C3 state. -/
def c3out : List Trends.Trend :=
  match Trends.get_data c3st with
  | Except.ok o => o
  | Except.error _ => []

/-- The single trend of the C3 output. -/
def c3t0 : Trends.Trend :=
  match c3out with
  | t :: _ => t
  | [] => Trends.Trend.mk Option.none Option.none Option.none "" "" "" 0 "" [] 0 [] []

/-- A state holding one group with no `"total"` action. -/
def stNoTotal : Trends.Data :=
  [("k", Trends.Group.mk [(Cell.str "other_action", Trends.ActionData.empty)] 0 "a.b" "cfg")]

/-- A state holding one group whose name has no `"."`. -/
def stNoDot : Trends.Data :=
  [("k", Trends.Group.mk [(Cell.str "total", Trends.ActionData.empty)] 0 "ab" "cfg")]

/-- A run whose Success field and whose `Max (sec)` duration are the
non-numeric sentinel `"n/a"`. -/
def naRes : RunResult := statRes "a.b" (Value.str "cfg") 1 "n/a" (Cell.str "n/a")

/-- The state after folding `naRes` into the empty state. -/
def naSt : Trends.Data :=
  match Trends.add_result [] naRes with
  | Except.ok s => s
  | Except.error _ => []

/-! ### Order lemmas for the lexicographic string comparison -/

theorem charsLe_total (as bs : List Char) : charsLe as bs = true ∨ charsLe bs as = true := by
  induction as generalizing bs with
  | nil => exact Or.inl rfl
  | cons a as ih =>
    cases bs with
    | nil => exact Or.inr rfl
    | cons b bs =>
      simp only [charsLe]
      rcases lt_trichotomy a b with h | h | h
      · simp [h, not_lt_of_gt h]
      · subst h
        simpa [lt_irrefl] using ih bs
      · simp [h, not_lt_of_gt h]

theorem charsLe_trans (as bs cs : List Char) (h1 : charsLe as bs = true)
    (h2 : charsLe bs cs = true) : charsLe as cs = true := by
  induction as generalizing bs cs with
  | nil => rfl
  | cons a as ih =>
    cases bs with
    | nil => simp [charsLe] at h1
    | cons b bs =>
      cases cs with
      | nil => simp [charsLe] at h2
      | cons c cs =>
        simp only [charsLe] at h1 h2 ⊢
        rcases lt_trichotomy a b with hab | hab | hab
        · rcases lt_trichotomy b c with hbc | hbc | hbc
          · have hac : a < c := lt_trans hab hbc
            simp [hac]
          · subst hbc
            simp [hab]
          · exfalso
            simp [hbc, not_lt_of_gt hbc] at h2
        · subst hab
          rcases lt_trichotomy a c with hac | hac | hac
          · simp [hac]
          · subst hac
            simp only [lt_irrefl, if_false] at h1 h2 ⊢
            exact ih _ _ h1 h2
          · exfalso
            simp [hac, not_lt_of_gt hac] at h2
        · exfalso
          simp [hab, not_lt_of_gt hab] at h1

theorem charsLe_antisymm (as bs : List Char) (h1 : charsLe as bs = true)
    (h2 : charsLe bs as = true) : as = bs := by
  induction as generalizing bs with
  | nil =>
    cases bs with
    | nil => rfl
    | cons b bs => simp [charsLe] at h2
  | cons a as ih =>
    cases bs with
    | nil => simp [charsLe] at h1
    | cons b bs =>
      simp only [charsLe] at h1 h2
      rcases lt_trichotomy a b with hab | hab | hab
      · exfalso
        simp [hab, not_lt_of_gt hab] at h2
      · subst hab
        simp only [lt_irrefl, if_false] at h1 h2
        exact congrArg (a :: ·) (ih _ h1 h2)
      · exfalso
        simp [hab, not_lt_of_gt hab] at h1

/-- Sorting is invariant under permutation of the input: the key property
behind order-independent canonicalization. -/
theorem sortStrings_perm_invariant (l1 l2 : List String) (h : l1.Perm l2) :
    sortStrings l1 = sortStrings l2 := by
  haveI : IsTotal String (fun a b => strLeB a b = true) :=
    ⟨fun a b => charsLe_total a.data b.data⟩
  haveI : IsTrans String (fun a b => strLeB a b = true) :=
    ⟨fun a b c h1 h2 => charsLe_trans a.data b.data c.data h1 h2⟩
  haveI : IsAntisymm String (fun a b => strLeB a b = true) :=
    ⟨fun a b h1 h2 => by
      have h3 := charsLe_antisymm a.data b.data h1 h2
      cases a
      cases b
      exact congrArg String.mk h3⟩
  apply List.eq_of_perm_of_sorted (r := fun a b => strLeB a b = true)
  · exact ((List.perm_insertionSort _ l1).trans h).trans (List.perm_insertionSort _ l2).symm
  · exact List.sorted_insertionSort _ l1
  · exact List.sorted_insertionSort _ l2

/-! ### Structural equality up to permutation -/

theorem PermEq.kind_eq {a b : Value} (h : PermEq a b) : a.kind = b.kind := by
  induction h with
  | refl => rfl
  | symm _ ih => exact ih.symm
  | trans _ _ ih1 ih2 => exact ih1.trans ih2
  | list_perm _ => rfl
  | dict_perm _ => rfl
  | list_head _ _ => rfl
  | dict_key _ _ _ => rfl
  | dict_val _ _ _ => rfl

theorem exceptPerm_trans {x y z : Except Unit (List String)}
    (h1 : exceptPerm x y) (h2 : exceptPerm y z) : exceptPerm x z := by
  cases x with
  | error e =>
    cases y with
    | error e2 =>
      cases z with
      | error e3 => trivial
      | ok c => exact h2.elim
    | ok b => exact h1.elim
  | ok a =>
    cases y with
    | error e2 => exact h1.elim
    | ok b =>
      cases z with
      | error e3 => exact h2.elim
      | ok c => exact h1.trans h2

theorem listToStr_perm {vs ws : List Value} (h : vs.Perm ws) :
    exceptPerm (listToStr vs) (listToStr ws) := by
  induction h with
  | nil => exact List.Perm.nil
  | cons x _ ih =>
    simp only [listToStr]
    cases hx : to_str x with
    | error e => trivial
    | ok s =>
      revert ih
      cases listToStr _ with
      | error e =>
        cases listToStr _ with
        | error e2 => intro ih; trivial
        | ok b => intro ih; exact absurd ih (by simp [exceptPerm])
      | ok a =>
        cases listToStr _ with
        | error e2 => intro ih; exact absurd ih (by simp [exceptPerm])
        | ok b => intro ih; exact List.Perm.cons s ih
  | swap x y l =>
    simp only [listToStr]
    cases hy : to_str y with
    | error e =>
      cases hx : to_str x with
      | error e2 => trivial
      | ok s =>
        cases listToStr l with
        | error e3 => trivial
        | ok a => trivial
    | ok t =>
      cases hx : to_str x with
      | error e2 => trivial
      | ok s =>
        cases listToStr l with
        | error e3 => trivial
        | ok a => exact List.Perm.swap s t a
  | trans _ _ ih1 ih2 => exact exceptPerm_trans ih1 ih2

theorem pairsToStr_perm {ps qs : List (Value × Value)} (h : ps.Perm qs) :
    exceptPerm (pairsToStr ps) (pairsToStr qs) := by
  induction h with
  | nil => exact List.Perm.nil
  | cons x _ ih =>
    obtain ⟨k, v⟩ := x
    simp only [pairsToStr]
    cases hk : to_str k with
    | error e => trivial
    | ok ks =>
      cases hv : to_str v with
      | error e => trivial
      | ok vs2 =>
        revert ih
        cases pairsToStr _ with
        | error e =>
          cases pairsToStr _ with
          | error e2 => intro ih; trivial
          | ok b => intro ih; exact absurd ih (by simp [exceptPerm])
        | ok a =>
          cases pairsToStr _ with
          | error e2 => intro ih; exact absurd ih (by simp [exceptPerm])
          | ok b => intro ih; exact List.Perm.cons _ ih
  | swap x y l =>
    obtain ⟨k1, v1⟩ := x
    obtain ⟨k2, v2⟩ := y
    simp only [pairsToStr]
    cases to_str k2 with
    | error e =>
      cases to_str k1 with
      | error e2 => trivial
      | ok s =>
        cases to_str v1 with
        | error e3 => trivial
        | ok t =>
          cases pairsToStr l with
          | error e4 => trivial
          | ok a => trivial
    | ok s2 =>
      cases to_str v2 with
      | error e2 =>
        cases to_str k1 with
        | error e3 => trivial
        | ok s =>
          cases to_str v1 with
          | error e4 => trivial
          | ok t =>
            cases pairsToStr l with
            | error e5 => trivial
            | ok a => trivial
      | ok t2 =>
        cases to_str k1 with
        | error e3 => trivial
        | ok s =>
          cases to_str v1 with
          | error e4 => trivial
          | ok t =>
            cases pairsToStr l with
            | error e5 => trivial
            | ok a => exact List.Perm.swap _ _ a
  | trans _ _ ih1 ih2 => exact exceptPerm_trans ih1 ih2

/-- Canonicalization depends only on the structure of a value up to
permutation. -/
theorem to_str_permEq {a b : Value} (h : PermEq a b) : to_str a = to_str b := by
  induction h with
  | refl => rfl
  | symm _ ih => exact ih.symm
  | trans _ _ ih1 ih2 => exact ih1.trans ih2
  | list_perm hp =>
    have h2 := listToStr_perm hp
    simp only [to_str]
    revert h2
    cases listToStr _ with
    | error e =>
      cases listToStr _ with
      | error e2 => intro h2; rfl
      | ok b2 => intro h2; exact absurd h2 (by simp [exceptPerm])
    | ok a2 =>
      cases listToStr _ with
      | error e2 => intro h2; exact absurd h2 (by simp [exceptPerm])
      | ok b2 =>
        intro h2
        simp only [Except.ok.injEq]
        exact congrArg _ (sortStrings_perm_invariant _ _ h2)
  | dict_perm hp =>
    have h2 := pairsToStr_perm hp
    simp only [to_str]
    revert h2
    cases pairsToStr _ with
    | error e =>
      cases pairsToStr _ with
      | error e2 => intro h2; rfl
      | ok b2 => intro h2; exact absurd h2 (by simp [exceptPerm])
    | ok a2 =>
      cases pairsToStr _ with
      | error e2 => intro h2; exact absurd h2 (by simp [exceptPerm])
      | ok b2 =>
        intro h2
        simp only [Except.ok.injEq]
        exact congrArg _ (sortStrings_perm_invariant _ _ h2)
  | list_head vs _ ih => simp only [to_str, listToStr, ih]
  | dict_key v ps _ ih => simp only [to_str, pairsToStr, ih]
  | dict_val k ps _ ih => simp only [to_str, pairsToStr, ih]

/-! ### Character-level facts for scalar rendering -/

theorem natDigits_all_digit (n : Nat) : ∀ c ∈ natDigits n, c.isDigit = true := by
  induction n using Nat.strong_induction_on with
  | _ n ih =>
    rw [natDigits]
    split
    · intro c hc
      simp only [List.mem_singleton] at hc
      subst hc
      rename_i h
      interval_cases n <;> decide
    · intro c hc
      rename_i h
      rcases List.mem_append.mp hc with h1 | h1
      · exact ih (n / 10) (Nat.div_lt_self (by omega) (by omega)) c h1
      · simp only [List.mem_singleton] at h1
        subst h1
        have h2 : n % 10 < 10 := Nat.mod_lt _ (by omega)
        set m := n % 10 with hm
        clear_value m
        interval_cases m <;> decide

theorem isDigit_not_ws (c : Char) (h : c.isDigit = true) : c.isWhitespace = false := by
  rw [Char.isWhitespace]
  simp only [Bool.or_eq_false_iff, decide_eq_false_iff_not]
  refine ⟨⟨⟨?_, ?_⟩, ?_⟩, ?_⟩ <;> rintro rfl <;> exact absurd h (by decide)

theorem pyStr_no_ws (n : Int) : ∀ c ∈ (pyStr n).data, c.isWhitespace = false := by
  intro c hc
  rw [pyStr] at hc
  split at hc
  · simp only [String.mk] at hc
    rcases List.mem_cons.mp hc with h1 | h1
    · subst h1
      decide
    · exact isDigit_not_ws c (natDigits_all_digit _ c h1)
  · simp only [String.mk] at hc
    exact isDigit_not_ws c (natDigits_all_digit _ c hc)

theorem dropWhile_not_ws (l : List Char) (h : ∀ c ∈ l, Char.isWhitespace c = false) :
    l.dropWhile Char.isWhitespace = l := by
  cases l with
  | nil => rfl
  | cons c rest =>
    have hc : Char.isWhitespace c = false := h c (List.mem_cons_self c rest)
    simp [List.dropWhile, hc]

theorem pyStrip_id (s : String) (h : ∀ c ∈ s.data, Char.isWhitespace c = false) :
    pyStrip s = s := by
  rw [pyStrip]
  rw [dropWhile_not_ws s.data h]
  rw [dropWhile_not_ws s.data.reverse (fun c hc => h c (List.mem_reverse.mp hc))]
  rw [List.reverse_reverse]

theorem pyStr_ne_None (n : Int) : pyStr n ≠ "None" := by
  intro h
  have hN : 'N' ∈ (pyStr n).data := by
    rw [h]
    decide
  rw [pyStr] at hN
  split at hN
  · simp only [String.mk] at hN
    rcases List.mem_cons.mp hN with h1 | h1
    · exact absurd h1 (by decide)
    · have := natDigits_all_digit _ 'N' h1
      exact absurd this (by decide)
  · simp only [String.mk] at hN
    have := natDigits_all_digit _ 'N' hN
    exact absurd this (by decide)

/-! ### Claim C1 -/

/-- C1: canonicalization is order-independent and grouping is deterministic:
`_to_str` of a dict is unchanged under any permutation of its key order,
`_to_str` of a list is unchanged under any permutation of its elements, and
any two values that are structurally equal up to such permutations (at any
depth) receive the same grouping key from `_make_hash`. -/
theorem c1_canonicalization_order_independent :
    (∀ ps qs : List (Value × Value), ps.Perm qs →
      to_str (Value.vdict ps) = to_str (Value.vdict qs)) ∧
    (∀ vs ws : List Value, vs.Perm ws →
      to_str (Value.vlist vs) = to_str (Value.vlist ws)) ∧
    (∀ a b : Value, PermEq a b → make_hash a = make_hash b) :=
  ⟨fun _ _ hp => to_str_permEq (PermEq.dict_perm hp),
   fun _ _ hp => to_str_permEq (PermEq.list_perm hp),
   fun a b hp => by rw [make_hash, make_hash, to_str_permEq hp]⟩

/-- Witness for C1 at the spec's end-to-end example: the permuted
configurations of §8 hash identically. -/
theorem c1_canonicalization_order_independent_witness :
    make_hash (Value.vdict [(Value.str "a", Value.int 1),
      (Value.str "b", Value.vlist [Value.int 3, Value.int 2])]) =
    make_hash (Value.vdict [(Value.str "b", Value.vlist [Value.int 2, Value.int 3]),
      (Value.str "a", Value.int 1)]) :=
  c1_canonicalization_order_independent.2.2 _ _
    (PermEq.trans
      (PermEq.dict_perm (List.Perm.swap _ _ []))
      (PermEq.dict_val _ _ (PermEq.list_perm (List.Perm.swap _ _ []))))

/-! ### Claim C2 -/

/-- C2 counterexample: the claim that structurally different values always
canonicalize differently is false: the scalar `"a,b"` (whose trimmed text
contains the sequence separator) and the sequence `["a", "b"]` are not
structurally equal up to permutation, yet produce the same canonical
string. -/
theorem c2_counterexample :
    to_str (Value.str "a,b") = to_str (Value.vlist [Value.str "a", Value.str "b"]) ∧
    ¬ PermEq (Value.str "a,b") (Value.vlist [Value.str "a", Value.str "b"]) := by
  constructor
  · decide
  · intro h
    have h2 := h.kind_eq
    simp [Value.kind] at h2

/-- C2 amended: the three join separators are the single characters `","`,
`"|"` and `":"`, which trimmed scalar content can contain, so canonicalize is
not injective on structurally different values: the scalar `"a,b"` and the
sequence `["a", "b"]` both canonicalize to `"a,b"`. -/
theorem c2_amended_separators_collide :
    to_str (Value.str "a,b") = Except.ok "a,b" ∧
    to_str (Value.vlist [Value.str "a", Value.str "b"]) = Except.ok "a,b" ∧
    ¬ PermEq (Value.str "a,b") (Value.vlist [Value.str "a", Value.str "b"]) := by
  refine ⟨by decide, by decide, ?_⟩
  intro h
  have h2 := h.kind_eq
  simp [Value.kind] at h2

/-! ### Claim C4 -/

/-- C4 counterexample: the claim that `canonicalize(null)` differs from the
canonicalization of every non-null scalar is false: the string scalar
`"None"` also renders to `"None"`. -/
theorem c4_counterexample :
    to_str (Value.str "None") = to_str Value.none ∧
    Value.str "None" ≠ Value.none := by
  refine ⟨by decide, ?_⟩
  intro h
  exact Value.noConfusion h

/-- C4 amended: `null` renders to the fixed literal `"None"` and text scalars
render trimmed of surrounding whitespace; the rendering of `null` differs
from that of every integer scalar and of every string scalar except exactly
those whose trimmed text is the literal `"None"` itself. -/
theorem c4_null_rendering :
    to_str Value.none = Except.ok "None" ∧
    (∀ n : Int, to_str (Value.int n) ≠ to_str Value.none) ∧
    (∀ s : String, to_str (Value.str s) = Except.ok (pyStrip s)) ∧
    (∀ s : String, pyStrip s ≠ "None" → to_str (Value.str s) ≠ to_str Value.none) ∧
    (∀ s : String, pyStrip s = "None" → to_str (Value.str s) = to_str Value.none) := by
  refine ⟨rfl, ?_, fun s => rfl, ?_, ?_⟩
  · intro n h
    rw [to_str, to_str] at h
    rw [pyStrip_id _ (pyStr_no_ws n)] at h
    exact pyStr_ne_None n (Except.ok.inj h)
  · intro s hs h
    rw [to_str, to_str] at h
    exact hs (Except.ok.inj h)
  · intro s hs
    rw [to_str, to_str, hs]

/-- Witness for C4's amended claim at concrete scalars. -/
theorem c4_null_rendering_witness :
    to_str (Value.int 42) ≠ to_str Value.none ∧
    to_str (Value.str "  x ") ≠ to_str Value.none ∧
    to_str (Value.str " None  ") = to_str Value.none :=
  ⟨c4_null_rendering.2.1 42,
   c4_null_rendering.2.2.2.1 "  x " (by decide),
   c4_null_rendering.2.2.2.2 " None  " (by decide)⟩

/-! ### Claim C5 -/

mutual

theorem hasOther_to_str_error : ∀ v : Value, hasOther v = true → to_str v = Except.error ()
  | Value.none, h => by simp [hasOther] at h
  | Value.str s, h => by simp [hasOther] at h
  | Value.int n, h => by simp [hasOther] at h
  | Value.vlist vs, h => by
      rw [to_str, listHasOther_error vs h]
  | Value.vdict ps, h => by
      rw [to_str, pairsHasOther_error ps h]
  | Value.other, _ => rfl

theorem listHasOther_error : ∀ vs : List Value, listHasOther vs = true →
    listToStr vs = Except.error ()
  | [], h => by simp [listHasOther] at h
  | v :: vs, h => by
      rw [listToStr]
      have h2 : hasOther v = true ∨ listHasOther vs = true := by
        simpa [listHasOther] using h
      rcases h2 with hv | hvs
      · rw [hasOther_to_str_error v hv]
      · rw [listHasOther_error vs hvs]
        cases hv2 : to_str v with
        | error e => rfl
        | ok s => rfl

theorem pairsHasOther_error : ∀ ps : List (Value × Value), pairsHasOther ps = true →
    pairsToStr ps = Except.error ()
  | [], h => by simp [pairsHasOther] at h
  | (k, v) :: ps, h => by
      rw [pairsToStr]
      have h2 : hasOther k = true ∨ hasOther v = true ∨ pairsHasOther ps = true := by
        simpa [pairsHasOther, or_assoc] using h
      rcases h2 with hk | hv | hps
      · rw [hasOther_to_str_error k hk]
      · rw [hasOther_to_str_error v hv]
        cases hk2 : to_str k with
        | error e => rfl
        | ok s => rfl
      · rw [pairsHasOther_error ps hps]
        cases hk2 : to_str k with
        | error e => rfl
        | ok s =>
          cases hv2 : to_str v with
          | error e => rfl
          | ok t => rfl

end

/-- C5: every value containing an unsupported type fails canonicalization
with the `TypeError` marking an unsupported type (and `Value.other` itself
does so directly), and `add_result` on a run result whose `key.kw` contains
such a value propagates that error: the fold aborts with `TypeError` instead
of absorbing it. -/
theorem c5_unsupported_type_propagates :
    to_str Value.other = Except.error () ∧
    (∀ v : Value, hasOther v = true → to_str v = Except.error ()) ∧
    (∀ (st : Trends.Data) (r : RunResult), hasOther r.key.kw = true →
      Trends.add_result st r = Except.error PyErr.typeError) := by
  refine ⟨rfl, hasOther_to_str_error, ?_⟩
  intro st r h
  have hm : make_hash r.key.kw = Except.error PyErr.typeError := by
    rw [make_hash, hasOther_to_str_error _ h]
  simp only [Trends.add_result, hm]

/-- Witness for C5: a fold whose configuration contains an unsupported value
aborts with `TypeError`. -/
theorem c5_unsupported_type_propagates_witness :
    Trends.add_result []
      { key := { name := "a.b", kw := Value.vlist [Value.int 1, Value.other] },
        info := { stat := { cols := [], rows := [] }, tstamp_start := 1 },
        sla := [] } = Except.error PyErr.typeError :=
  c5_unsupported_type_propagates.2.2 _ _ (by decide)

/-! ### Association-list lemmas -/

theorem alookup_aupdate_self {α β : Type} [DecidableEq α] (l : List (α × β)) (a : α) (b : β) :
    alookup (aupdate l a b) a = some b := by
  induction l with
  | nil => simp [aupdate, alookup]
  | cons kv rest ih =>
    obtain ⟨k, v⟩ := kv
    by_cases h : k = a
    · subst h
      simp [aupdate, alookup]
    · simp [aupdate, alookup, h, ih]

theorem alookup_aupdate_ne {α β : Type} [DecidableEq α] (l : List (α × β)) (a a' : α) (b : β)
    (h : a' ≠ a) : alookup (aupdate l a b) a' = alookup l a' := by
  have h2 : a ≠ a' := Ne.symm h
  induction l with
  | nil => simp [aupdate, alookup, h2]
  | cons kv rest ih =>
    obtain ⟨k, v⟩ := kv
    by_cases hk : k = a
    · subst hk
      simp [aupdate, alookup, h2]
    · simp [aupdate, alookup, hk, ih]

theorem alookup_amodify_self {α β : Type} [DecidableEq α] (l : List (α × β)) (a : α)
    (f : β → β) : alookup (amodify l a f) a = (alookup l a).map f := by
  induction l with
  | nil => simp [amodify, alookup]
  | cons kv rest ih =>
    obtain ⟨k, v⟩ := kv
    by_cases hk : k = a
    · subst hk
      simp [amodify, alookup]
    · simp [amodify, alookup, hk, ih]

theorem alookup_amodify_ne {α β : Type} [DecidableEq α] (l : List (α × β)) (a a' : α)
    (f : β → β) (h : a' ≠ a) : alookup (amodify l a f) a' = alookup l a' := by
  induction l with
  | nil => simp [amodify, alookup]
  | cons kv rest ih =>
    obtain ⟨k, v⟩ := kv
    by_cases hk : k = a
    · subst hk
      simp [amodify, alookup, Ne.symm h]
    · simp [amodify, alookup, hk, ih]

/-! ### Decomposition of a successful fold -/

theorem add_result_ok_decomp {st : Trends.Data} {r : RunResult} {st2 : Trends.Data}
    (h : Trends.add_result st r = Except.ok st2) :
    ∃ key tbl g acts,
      make_hash r.key.kw = Except.ok key ∧
      Trends.buildStat r.info.stat.cols r.info.stat.rows = Except.ok tbl ∧
      alookup (Trends.midState st r key) key = some g ∧
      Trends.processActions (pyInt (qmul r.info.tstamp_start 1000)) tbl g.actions =
        Except.ok acts ∧
      st2 = amodify (Trends.midState st r key) key (fun g2 => { g2 with actions := acts }) := by
  rw [Trends.add_result] at h
  cases hmk : make_hash r.key.kw with
  | error e =>
    rw [hmk] at h
    cases h
  | ok key =>
    rw [hmk] at h
    simp only at h
    cases htbl : Trends.buildStat r.info.stat.cols r.info.stat.rows with
    | error e =>
      rw [htbl] at h
      cases h
    | ok tbl =>
      rw [htbl] at h
      simp only at h
      cases hg : alookup (Trends.midState st r key) key with
      | none =>
        rw [Trends.midState] at hg
        rw [hg] at h
        cases h
      | some g =>
        rw [Trends.midState] at hg
        rw [hg] at h
        simp only at h
        cases hacts : Trends.processActions (pyInt (qmul r.info.tstamp_start 1000)) tbl
            g.actions with
        | error e =>
          rw [hacts] at h
          cases h
        | ok acts =>
          rw [hacts] at h
          simp only at h
          refine ⟨key, tbl, g, acts, rfl, rfl, ?_, hacts, ?_⟩
          · rw [Trends.midState]
            exact hg
          · rw [Trends.midState]
            exact (Except.ok.inj h).symm

theorem midState_lookup_self (st : Trends.Data) (r : RunResult) (key : String) :
    alookup (Trends.midState st r key) key =
      some (match alookup st key with
        | some g0 => { g0 with sla_failures := g0.sla_failures + Trends.slaFailCount r.sla }
        | Option.none =>
            { actions := [], sla_failures := 0 + Trends.slaFailCount r.sla,
              name := r.key.name, config := jsonDumps r.key.kw }) := by
  rw [Trends.midState]
  cases h : alookup st key with
  | none =>
    rw [alookup_amodify_self, alookup_aupdate_self]
    rfl
  | some g0 =>
    rw [alookup_amodify_self, h]
    rfl

theorem midState_lookup_ne (st : Trends.Data) (r : RunResult) (key k : String)
    (h : k ≠ key) : alookup (Trends.midState st r key) k = alookup st k := by
  rw [Trends.midState, alookup_amodify_ne _ _ _ _ h]
  cases h2 : alookup st key with
  | none => rw [alookup_aupdate_ne _ _ _ _ h]
  | some g0 => rfl

/-! ### Claim C6 -/

/-- C6: each successful fold increments the target group's `sla_failures` by
exactly the number of sla entries whose `success` is false, leaves every
other group untouched, and never decreases the counter; in particular the
three-fold scenario `[T]`, `[F]`, `[F, T]` ends with `sla_failures = 2`. -/
theorem c6_sla_failure_counting :
    (∀ (st : Trends.Data) (r : RunResult) (st2 : Trends.Data),
      Trends.add_result st r = Except.ok st2 →
      ∃ key, make_hash r.key.kw = Except.ok key ∧
        (∀ k, k ≠ key → alookup st2 k = alookup st k) ∧
        ∃ g2, alookup st2 key = some g2 ∧
          g2.sla_failures = (match alookup st key with
            | some g0 => g0.sla_failures
            | Option.none => 0) + Trends.slaFailCount r.sla ∧
          (∀ g0, alookup st key = some g0 → g0.sla_failures ≤ g2.sla_failures)) ∧
    slaScenario = Except.ok (some 2) := by
  constructor
  · intro st r st2 h
    obtain ⟨key, tbl, g, acts, hmk, htbl, hg, hacts, hst2⟩ := add_result_ok_decomp h
    refine ⟨key, hmk, ?_, ?_⟩
    · intro k hk
      rw [hst2, alookup_amodify_ne _ _ _ _ hk, midState_lookup_ne st r key k hk]
    · have hmid := midState_lookup_self st r key
      cases h0 : alookup st key with
      | none =>
        rw [h0] at hmid
        refine ⟨Trends.Group.mk acts (0 + Trends.slaFailCount r.sla) r.key.name
          (jsonDumps r.key.kw), ?_, ?_, ?_⟩
        · rw [hst2, alookup_amodify_self, hmid]
          rfl
        · rfl
        · intro g0 hg0
          cases hg0
      | some g0 =>
        rw [h0] at hmid
        refine ⟨Trends.Group.mk acts (g0.sla_failures + Trends.slaFailCount r.sla)
          g0.name g0.config, ?_, ?_, ?_⟩
        · rw [hst2, alookup_amodify_self, hmid]
          rfl
        · rfl
        · intro g1 hg1
          cases hg1
          exact Nat.le_add_right _ _
  · decide

/-- Witness for C6 at the third fold of the scenario. -/
theorem c6_sla_failure_counting_witness :
    ∃ key, make_hash (slaRes [false, true]).key.kw = Except.ok key ∧
      (∀ k, k ≠ key → alookup slaSt3 k = alookup slaSt2 k) ∧
      ∃ g2, alookup slaSt3 key = some g2 ∧
        g2.sla_failures = (match alookup slaSt2 key with
          | some g0 => g0.sla_failures
          | Option.none => 0) + Trends.slaFailCount (slaRes [false, true]).sla ∧
        (∀ g0, alookup slaSt2 key = some g0 → g0.sla_failures ≤ g2.sla_failures) :=
  c6_sla_failure_counting.1 slaSt2 (slaRes [false, true]) slaSt3 (by decide)

/-! ### Append-only characterization of the action loop -/

theorem appendRow_spec {ts : Int} {rd : List (String × Cell)} {ad ad2 : Trends.ActionData}
    (h : Trends.appendRow ts rd ad = Except.ok ad2) :
    ∃ sv v1 v2 v3 v4 v5 v6,
      ad2 = Trends.ActionData.mk (ad.dmin ++ [(ts, v1)]) (ad.dmedian ++ [(ts, v2)])
        (ad.d90ile ++ [(ts, v3)]) (ad.d95ile ++ [(ts, v4)]) (ad.dmax ++ [(ts, v5)])
        (ad.davg ++ [(ts, v6)]) (ad.success ++ [(ts, sv)]) := by
  rw [Trends.appendRow] at h
  cases h1 : Trends.successValue rd with
  | error e => rw [h1] at h; cases h
  | ok sv =>
  rw [h1] at h
  simp only at h
  cases h2 : Trends.lookCol rd "Min (sec)" with
  | error e => rw [h2] at h; cases h
  | ok v1 =>
  rw [h2] at h
  simp only at h
  cases h3 : Trends.lookCol rd "Median (sec)" with
  | error e => rw [h3] at h; cases h
  | ok v2 =>
  rw [h3] at h
  simp only at h
  cases h4 : Trends.lookCol rd "90%ile (sec)" with
  | error e => rw [h4] at h; cases h
  | ok v3 =>
  rw [h4] at h
  simp only at h
  cases h5 : Trends.lookCol rd "95%ile (sec)" with
  | error e => rw [h5] at h; cases h
  | ok v4 =>
  rw [h5] at h
  simp only at h
  cases h6 : Trends.lookCol rd "Max (sec)" with
  | error e => rw [h6] at h; cases h
  | ok v5 =>
  rw [h6] at h
  simp only at h
  cases h7 : Trends.lookCol rd "Avg (sec)" with
  | error e => rw [h7] at h; cases h
  | ok v6 =>
  rw [h7] at h
  simp only at h
  exact ⟨sv, v1, v2, v3, v4, v5, v6, (Except.ok.inj h).symm⟩

theorem processAction_spec {ts : Int} {acts : List (Cell × Trends.ActionData)} {a : Cell}
    {rd : List (String × Cell)} {out : List (Cell × Trends.ActionData)}
    (h : Trends.processAction ts acts a rd = Except.ok out) :
    (∀ a', a' ≠ a → alookup out a' = alookup acts a') ∧
    ∃ sv v1 v2 v3 v4 v5 v6,
      alookup out a = some (Trends.ActionData.mk
        (((alookup acts a).getD Trends.ActionData.empty).dmin ++ [(ts, v1)])
        (((alookup acts a).getD Trends.ActionData.empty).dmedian ++ [(ts, v2)])
        (((alookup acts a).getD Trends.ActionData.empty).d90ile ++ [(ts, v3)])
        (((alookup acts a).getD Trends.ActionData.empty).d95ile ++ [(ts, v4)])
        (((alookup acts a).getD Trends.ActionData.empty).dmax ++ [(ts, v5)])
        (((alookup acts a).getD Trends.ActionData.empty).davg ++ [(ts, v6)])
        (((alookup acts a).getD Trends.ActionData.empty).success ++ [(ts, sv)])) := by
  rw [Trends.processAction] at h
  cases h0 : alookup acts a with
  | none =>
    rw [h0] at h
    simp only [alookup_aupdate_self, Option.getD_some] at h
    cases h1 : Trends.appendRow ts rd Trends.ActionData.empty with
    | error e => rw [h1] at h; cases h
    | ok ad2 =>
      rw [h1] at h
      simp only at h
      obtain ⟨sv, v1, v2, v3, v4, v5, v6, hshape⟩ := appendRow_spec h1
      have hout : out = aupdate (aupdate acts a Trends.ActionData.empty) a ad2 :=
        (Except.ok.inj h).symm
      constructor
      · intro a' ha'
        rw [hout, alookup_aupdate_ne _ _ _ _ ha', alookup_aupdate_ne _ _ _ _ ha']
      · refine ⟨sv, v1, v2, v3, v4, v5, v6, ?_⟩
        rw [hout, alookup_aupdate_self, hshape]
        rfl
  | some ad0 =>
    simp only [h0, Option.getD_some] at h
    cases h1 : Trends.appendRow ts rd ad0 with
    | error e => rw [h1] at h; cases h
    | ok ad2 =>
      rw [h1] at h
      simp only at h
      obtain ⟨sv, v1, v2, v3, v4, v5, v6, hshape⟩ := appendRow_spec h1
      have hout : out = aupdate acts a ad2 := (Except.ok.inj h).symm
      constructor
      · intro a' ha'
        rw [hout, alookup_aupdate_ne _ _ _ _ ha']
      · refine ⟨sv, v1, v2, v3, v4, v5, v6, ?_⟩
        rw [hout, alookup_aupdate_self, hshape]
        rfl

theorem alookup_eq_none_of_forall_ne {α β : Type} [DecidableEq α] (l : List (α × β)) (a : α)
    (h : ∀ p ∈ l, p.1 ≠ a) : alookup l a = Option.none := by
  induction l with
  | nil => rfl
  | cons kv rest ih =>
    have hk : kv.1 ≠ a := h kv (List.mem_cons_self kv rest)
    obtain ⟨k, v⟩ := kv
    simp only [alookup, hk, if_false]
    exact ih (fun p hp => h p (List.mem_cons_of_mem _ hp))

theorem processActions_spec {ts : Int} {tbl : List (Cell × List (String × Cell))}
    {acts acts2 : List (Cell × Trends.ActionData)}
    (hnd : tbl.Pairwise (fun p q => p.1 ≠ q.1))
    (h : Trends.processActions ts tbl acts = Except.ok acts2) :
    (∀ a, alookup tbl a = Option.none → alookup acts2 a = alookup acts a) ∧
    (∀ a rd, alookup tbl a = some rd →
      ∃ sv v1 v2 v3 v4 v5 v6,
        alookup acts2 a = some (Trends.ActionData.mk
          (((alookup acts a).getD Trends.ActionData.empty).dmin ++ [(ts, v1)])
          (((alookup acts a).getD Trends.ActionData.empty).dmedian ++ [(ts, v2)])
          (((alookup acts a).getD Trends.ActionData.empty).d90ile ++ [(ts, v3)])
          (((alookup acts a).getD Trends.ActionData.empty).d95ile ++ [(ts, v4)])
          (((alookup acts a).getD Trends.ActionData.empty).dmax ++ [(ts, v5)])
          (((alookup acts a).getD Trends.ActionData.empty).davg ++ [(ts, v6)])
          (((alookup acts a).getD Trends.ActionData.empty).success ++ [(ts, sv)]))) := by
  induction tbl generalizing acts with
  | nil =>
    rw [Trends.processActions] at h
    constructor
    · intro a _
      rw [Except.ok.inj h]
    · intro a rd hrd
      cases hrd
  | cons hd rest ih =>
    obtain ⟨a0, rd0⟩ := hd
    rw [Trends.processActions] at h
    cases h1 : Trends.processAction ts acts a0 rd0 with
    | error e => rw [h1] at h; cases h
    | ok actsMid =>
      rw [h1] at h
      simp only at h
      have hps := processAction_spec h1
      have ihs := ih (List.Pairwise.of_cons hnd) h
      have hrest0 : alookup rest a0 = Option.none := by
        apply alookup_eq_none_of_forall_ne
        intro p hp
        exact (List.rel_of_pairwise_cons hnd hp).symm
      constructor
      · intro a ha
        rw [alookup] at ha
        by_cases he : a0 = a
        · rw [if_pos he] at ha
          cases ha
        · rw [if_neg he] at ha
          rw [ihs.1 a ha, hps.1 a (fun hc => he hc.symm)]
      · intro a rd hrd
        rw [alookup] at hrd
        by_cases he : a0 = a
        · subst he
          rw [if_pos rfl] at hrd
          obtain ⟨sv, v1, v2, v3, v4, v5, v6, hla⟩ := hps.2
          refine ⟨sv, v1, v2, v3, v4, v5, v6, ?_⟩
          rw [ihs.1 a0 hrest0, hla]
        · rw [if_neg he] at hrd
          obtain ⟨sv, v1, v2, v3, v4, v5, v6, hla⟩ := ihs.2 a rd hrd
          refine ⟨sv, v1, v2, v3, v4, v5, v6, ?_⟩
          rw [hla, hps.1 a (fun hc => he hc.symm)]

theorem mem_aupdate {α β : Type} [DecidableEq α] (l : List (α × β)) (a : α) (b : β) :
    ∀ q ∈ aupdate l a b, q.1 = a ∨ q ∈ l := by
  induction l with
  | nil =>
    intro q hq
    simp only [aupdate, List.mem_singleton] at hq
    subst hq
    exact Or.inl rfl
  | cons kv rest ih =>
    obtain ⟨k, v⟩ := kv
    intro q hq
    rw [aupdate] at hq
    by_cases hk : k = a
    · rw [if_pos hk] at hq
      rcases List.mem_cons.mp hq with h1 | h1
      · subst h1
        exact Or.inl rfl
      · exact Or.inr (List.mem_cons_of_mem _ h1)
    · rw [if_neg hk] at hq
      rcases List.mem_cons.mp hq with h1 | h1
      · subst h1
        exact Or.inr (List.mem_cons_self _ _)
      · rcases ih q h1 with h2 | h2
        · exact Or.inl h2
        · exact Or.inr (List.mem_cons_of_mem _ h2)

theorem aupdate_pairwise_ne {α β : Type} [DecidableEq α] (l : List (α × β)) (a : α) (b : β)
    (h : l.Pairwise (fun p q => p.1 ≠ q.1)) :
    (aupdate l a b).Pairwise (fun p q => p.1 ≠ q.1) := by
  induction l with
  | nil => simp [aupdate]
  | cons kv rest ih =>
    obtain ⟨k, v⟩ := kv
    obtain ⟨hhead, htail⟩ := List.pairwise_cons.mp h
    rw [aupdate]
    by_cases hk : k = a
    · subst hk
      rw [if_pos rfl]
      exact List.pairwise_cons.mpr ⟨hhead, htail⟩
    · rw [if_neg hk]
      refine List.pairwise_cons.mpr ⟨?_, ih htail⟩
      intro q hq
      rcases mem_aupdate rest a b q hq with h1 | h1
      · rw [h1]
        exact hk
      · exact hhead q h1

theorem buildStatAux_pairwise (cols : List String) (rows : List (List Cell)) :
    ∀ (acc tbl : List (Cell × List (String × Cell))),
      acc.Pairwise (fun p q => p.1 ≠ q.1) →
      Trends.buildStatAux cols acc rows = Except.ok tbl →
      tbl.Pairwise (fun p q => p.1 ≠ q.1) := by
  induction rows with
  | nil =>
    intro acc tbl hacc h
    rw [Trends.buildStatAux] at h
    rw [← Except.ok.inj h]
    exact hacc
  | cons row rest ih =>
    intro acc tbl hacc h
    rw [Trends.buildStatAux.eq_def] at h
    simp only at h
    cases row with
    | nil => cases h
    | cons c rowRest =>
      exact ih _ _ (aupdate_pairwise_ne _ _ _ hacc) h

theorem buildStat_pairwise {cols : List String} {rows : List (List Cell)}
    {tbl : List (Cell × List (String × Cell))}
    (h : Trends.buildStat cols rows = Except.ok tbl) :
    tbl.Pairwise (fun p q => p.1 ≠ q.1) :=
  buildStatAux_pairwise cols rows [] tbl List.Pairwise.nil h

/-! ### Claim C8 -/

/-- C8: fold is append-only.  A successful `add_result` leaves every other
group unchanged; in the target group, every action listed in this run's stat
table has exactly one `(ts, value)` entry appended to its success series and
to each of its six duration series (the previous entries kept as an unchanged
prefix), and every action not listed keeps its series untouched. -/
theorem c8_fold_append_only (st : Trends.Data) (r : RunResult) (st2 : Trends.Data)
    (h : Trends.add_result st r = Except.ok st2) :
    ∃ key tbl,
      make_hash r.key.kw = Except.ok key ∧
      Trends.buildStat r.info.stat.cols r.info.stat.rows = Except.ok tbl ∧
      (∀ k, k ≠ key → alookup st2 k = alookup st k) ∧
      ∃ g2, alookup st2 key = some g2 ∧
        (∀ a, alookup tbl a = Option.none →
          alookup g2.actions a = alookup (Trends.groupActions st key) a) ∧
        (∀ a rd, alookup tbl a = some rd →
          ∃ sv v1 v2 v3 v4 v5 v6,
            alookup g2.actions a = some (Trends.ActionData.mk
              ((Trends.actionBase st key a).dmin ++ [(pyInt (qmul r.info.tstamp_start 1000), v1)])
              ((Trends.actionBase st key a).dmedian ++ [(pyInt (qmul r.info.tstamp_start 1000), v2)])
              ((Trends.actionBase st key a).d90ile ++ [(pyInt (qmul r.info.tstamp_start 1000), v3)])
              ((Trends.actionBase st key a).d95ile ++ [(pyInt (qmul r.info.tstamp_start 1000), v4)])
              ((Trends.actionBase st key a).dmax ++ [(pyInt (qmul r.info.tstamp_start 1000), v5)])
              ((Trends.actionBase st key a).davg ++ [(pyInt (qmul r.info.tstamp_start 1000), v6)])
              ((Trends.actionBase st key a).success ++ [(pyInt (qmul r.info.tstamp_start 1000), sv)]))) := by
  obtain ⟨key, tbl, g, acts, hmk, htbl, hg, hacts, hst2⟩ := add_result_ok_decomp h
  have hmid := midState_lookup_self st r key
  have hsome := hg.symm.trans hmid
  have hga : g.actions = Trends.groupActions st key := by
    have hgeq := Option.some.inj hsome
    rw [Trends.groupActions]
    cases h0 : alookup st key with
    | none =>
      rw [h0] at hgeq
      simp only at hgeq
      rw [hgeq]
    | some g0 =>
      rw [h0] at hgeq
      simp only at hgeq
      rw [hgeq]
  have hspec := processActions_spec (buildStat_pairwise htbl) hacts
  refine ⟨key, tbl, hmk, htbl, ?_, ?_⟩
  · intro k hk
    rw [hst2, alookup_amodify_ne _ _ _ _ hk, midState_lookup_ne st r key k hk]
  · refine ⟨Trends.Group.mk acts (g.sla_failures) g.name g.config, ?_, ?_, ?_⟩
    · rw [hst2, alookup_amodify_self, hg]
      rfl
    · intro a ha
      have h1 := hspec.1 a ha
      rw [hga] at h1
      exact h1
    · intro a rd hrd
      obtain ⟨sv, v1, v2, v3, v4, v5, v6, hla⟩ := hspec.2 a rd hrd
      rw [hga] at hla
      exact ⟨sv, v1, v2, v3, v4, v5, v6, hla⟩

/-- Witness for C8 at a concrete successful fold. -/
theorem c8_fold_append_only_witness :
    ∃ key tbl,
      make_hash (statRes "a.b" (Value.str "cfg") 1 "2%" (Cell.num 5)).key.kw = Except.ok key ∧
      Trends.buildStat (statRes "a.b" (Value.str "cfg") 1 "2%" (Cell.num 5)).info.stat.cols
        (statRes "a.b" (Value.str "cfg") 1 "2%" (Cell.num 5)).info.stat.rows = Except.ok tbl ∧
      (∀ k, k ≠ key → alookup statSt1 k = alookup ([] : Trends.Data) k) ∧
      ∃ g2, alookup statSt1 key = some g2 ∧
        (∀ a, alookup tbl a = Option.none →
          alookup g2.actions a = alookup (Trends.groupActions [] key) a) ∧
        (∀ a rd, alookup tbl a = some rd →
          ∃ sv v1 v2 v3 v4 v5 v6,
            alookup g2.actions a = some (Trends.ActionData.mk
              ((Trends.actionBase [] key a).dmin ++ [(pyInt (qmul (statRes "a.b" (Value.str "cfg") 1 "2%" (Cell.num 5)).info.tstamp_start 1000), v1)])
              ((Trends.actionBase [] key a).dmedian ++ [(pyInt (qmul (statRes "a.b" (Value.str "cfg") 1 "2%" (Cell.num 5)).info.tstamp_start 1000), v2)])
              ((Trends.actionBase [] key a).d90ile ++ [(pyInt (qmul (statRes "a.b" (Value.str "cfg") 1 "2%" (Cell.num 5)).info.tstamp_start 1000), v3)])
              ((Trends.actionBase [] key a).d95ile ++ [(pyInt (qmul (statRes "a.b" (Value.str "cfg") 1 "2%" (Cell.num 5)).info.tstamp_start 1000), v4)])
              ((Trends.actionBase [] key a).dmax ++ [(pyInt (qmul (statRes "a.b" (Value.str "cfg") 1 "2%" (Cell.num 5)).info.tstamp_start 1000), v5)])
              ((Trends.actionBase [] key a).davg ++ [(pyInt (qmul (statRes "a.b" (Value.str "cfg") 1 "2%" (Cell.num 5)).info.tstamp_start 1000), v6)])
              ((Trends.actionBase [] key a).success ++ [(pyInt (qmul (statRes "a.b" (Value.str "cfg") 1 "2%" (Cell.num 5)).info.tstamp_start 1000), sv)]))) :=
  c8_fold_append_only [] (statRes "a.b" (Value.str "cfg") 1 "2%" (Cell.num 5)) statSt1
    (by decide)

/-! ### Sortedness of the finalize sorts -/

theorem charsLt_asymm (as bs : List Char) (h : charsLt as bs = true) : charsLt bs as = false := by
  induction as generalizing bs with
  | nil =>
    cases bs with
    | nil => simp [charsLt] at h
    | cons b bs => rfl
  | cons a as ih =>
    cases bs with
    | nil => simp [charsLt] at h
    | cons b bs =>
      simp only [charsLt] at h ⊢
      rcases lt_trichotomy a b with hab | hab | hab
      · simp [hab, not_lt_of_gt hab]
      · subst hab
        simp only [lt_irrefl, if_false] at h ⊢
        exact ih _ h
      · simp [hab, not_lt_of_gt hab] at h

theorem pairLt_asymm {p q : Int × Cell} (h : Trends.pairLt p q = Except.ok true) :
    pairPyLe p q := by
  rw [Trends.pairLt] at h
  rw [pairPyLe, Trends.pairLt]
  by_cases heq : p.1 = q.1
  · rw [if_pos heq] at h
    rw [if_pos heq.symm]
    cases hp : p.2 with
    | num x =>
      cases hq : q.2 with
      | num y =>
        rw [hp, hq, Trends.cellLt] at h
        rw [Trends.cellLt]
        have hxy : x < y := of_decide_eq_true (Except.ok.inj h)
        intro hc
        exact absurd (of_decide_eq_true (Except.ok.inj hc)) (not_lt_of_gt hxy)
      | str t =>
        rw [hp, hq] at h
        exact Except.noConfusion h
    | str sx =>
      cases hq : q.2 with
      | num y =>
        rw [hp, hq] at h
        exact Except.noConfusion h
      | str t =>
        rw [hp, hq, Trends.cellLt] at h
        rw [Trends.cellLt]
        have hlt := Except.ok.inj h
        intro hc
        have h2 := Except.ok.inj hc
        rw [charsLt_asymm _ _ hlt] at h2
        cases h2
  · rw [if_neg heq] at h
    rw [if_neg (fun hc => heq hc.symm)]
    have hlt : p.1 < q.1 := of_decide_eq_true (Except.ok.inj h)
    intro hc
    exact absurd (of_decide_eq_true (Except.ok.inj hc)) (not_lt_of_gt hlt)

theorem pairPyLe_of_false {p q : Int × Cell} (h : Trends.pairLt q p = Except.ok false) :
    pairPyLe p q := by
  rw [pairPyLe, h]
  intro hc
  cases Except.ok.inj hc

theorem pairPyLe_fst_le {p q : Int × Cell} (h : pairPyLe p q) : p.1 ≤ q.1 := by
  rw [pairPyLe, Trends.pairLt] at h
  by_cases heq : q.1 = p.1
  · exact le_of_eq heq.symm
  · rw [if_neg heq] at h
    by_contra hc
    rw [not_le] at hc
    exact h (by rw [decide_eq_true hc])

theorem insertPairE_chain {a : Int × Cell} {l out : List (Int × Cell)}
    (hc : List.Chain' pairPyLe l) (h : Trends.insertPairE a l = Except.ok out) :
    List.Chain' pairPyLe out ∧
      ∃ hd tl, out = hd :: tl ∧ (hd = a ∨ ∃ l0, l = hd :: l0) := by
  induction l generalizing out with
  | nil =>
    rw [Trends.insertPairE] at h
    cases h
    exact ⟨List.chain'_singleton a, a, [], rfl, Or.inl rfl⟩
  | cons b rest ih =>
    rw [Trends.insertPairE] at h
    cases hbl : Trends.pairLt b a with
    | error e => rw [hbl] at h; cases h
    | ok lt =>
      rw [hbl] at h
      cases lt with
      | true =>
        simp only at h
        cases hins : Trends.insertPairE a rest with
        | error e => rw [hins] at h; cases h
        | ok out0 =>
          rw [hins] at h
          simp only at h
          obtain ⟨hchain0, hd, tl, hout0, hhd⟩ := ih hc.tail hins
          have hout : out = b :: out0 := (Except.ok.inj h).symm
          subst hout
          subst hout0
          refine ⟨?_, b, hd :: tl, rfl, Or.inr ⟨rest, rfl⟩⟩
          rw [List.chain'_cons]
          refine ⟨?_, hchain0⟩
          rcases hhd with rfl | ⟨l0, rfl⟩
          · exact pairLt_asymm hbl
          · exact (List.chain'_cons.mp hc).1
      | false =>
        simp only at h
        have hout : out = a :: b :: rest := (Except.ok.inj h).symm
        subst hout
        exact ⟨List.chain'_cons.mpr ⟨pairPyLe_of_false hbl, hc⟩, a, b :: rest, rfl, Or.inl rfl⟩

theorem sortPairsE_chain {l out : List (Int × Cell)}
    (h : Trends.sortPairsE l = Except.ok out) : List.Chain' pairPyLe out := by
  induction l generalizing out with
  | nil =>
    rw [Trends.sortPairsE] at h
    cases h
    exact List.chain'_nil
  | cons a rest ih =>
    rw [Trends.sortPairsE] at h
    cases h0 : Trends.sortPairsE rest with
    | error e => rw [h0] at h; cases h
    | ok out0 =>
      rw [h0] at h
      simp only at h
      exact (insertPairE_chain (ih h0) h).1

theorem spairLt_asymm {p q : Int × ℚ} (h : Trends.spairLt p q = true) :
    Trends.spairLt q p = false := by
  rw [Trends.spairLt] at h ⊢
  simp only [Bool.or_eq_true, Bool.and_eq_true, decide_eq_true_eq] at h
  simp only [Bool.or_eq_false_iff, Bool.and_eq_false_iff, decide_eq_false_iff_not]
  rcases h with h1 | ⟨h1, h2⟩
  · exact ⟨not_lt_of_gt h1, Or.inl (fun hc => absurd hc.symm (ne_of_lt h1))⟩
  · exact ⟨fun hc => absurd h1 (fun h3 => absurd (h3 ▸ hc) (lt_irrefl _)),
      Or.inr (not_lt_of_gt h2)⟩

theorem spairPyLe_of_false {p q : Int × ℚ} (h : Trends.spairLt q p = false) :
    spairPyLe p q := h

theorem spairPyLe_fst_le {p q : Int × ℚ} (h : spairPyLe p q) : p.1 ≤ q.1 := by
  rw [spairPyLe, Trends.spairLt] at h
  simp only [Bool.or_eq_false_iff, Bool.and_eq_false_iff, decide_eq_false_iff_not] at h
  exact not_lt.mp h.1

theorem insertSucc_chain {a : Int × ℚ} {l : List (Int × ℚ)}
    (hc : List.Chain' spairPyLe l) :
    List.Chain' spairPyLe (Trends.insertSucc a l) ∧
      ∃ hd tl, Trends.insertSucc a l = hd :: tl ∧ (hd = a ∨ ∃ l0, l = hd :: l0) := by
  induction l with
  | nil => exact ⟨List.chain'_singleton a, a, [], rfl, Or.inl rfl⟩
  | cons b rest ih =>
    rw [Trends.insertSucc]
    by_cases hbl : Trends.spairLt b a = true
    · rw [if_pos hbl]
      obtain ⟨hchain0, hd, tl, hout0, hhd⟩ := ih hc.tail
      rw [hout0]
      refine ⟨?_, b, hd :: tl, rfl, Or.inr ⟨rest, rfl⟩⟩
      rw [List.chain'_cons]
      constructor
      · rcases hhd with rfl | ⟨l0, hrest⟩
        · exact spairLt_asymm hbl
        · rw [hrest] at hc
          exact (List.chain'_cons.mp hc).1
      · rw [← hout0]
        exact hchain0
    · rw [if_neg hbl]
      have hbl2 : Trends.spairLt b a = false := Bool.eq_false_iff.mpr hbl
      exact ⟨List.chain'_cons.mpr ⟨hbl2, hc⟩, a, b :: rest, rfl, Or.inl rfl⟩

theorem sortSucc_chain (l : List (Int × ℚ)) :
    List.Chain' spairPyLe (Trends.sortSucc l) := by
  induction l with
  | nil => exact List.chain'_nil
  | cons a rest ih =>
    rw [Trends.sortSucc]
    exact (insertSucc_chain ih).1

theorem sortDursList_sorted {ds out : List (String × List (Int × Cell))}
    (h : Trends.sortDursList ds = Except.ok out) :
    ∀ p ∈ out, List.Chain' pairPyLe p.2 := by
  induction ds generalizing out with
  | nil =>
    rw [Trends.sortDursList] at h
    cases h
    intro p hp
    cases hp
  | cons kv rest ih =>
    obtain ⟨k, v⟩ := kv
    rw [Trends.sortDursList] at h
    cases h1 : Trends.sortPairsE v with
    | error e => rw [h1] at h; cases h
    | ok v2 =>
      rw [h1] at h
      simp only at h
      cases h2 : Trends.sortDursList rest with
      | error e => rw [h2] at h; cases h
      | ok rest2 =>
        rw [h2] at h
        simp only at h
        cases h
        intro p hp
        rcases List.mem_cons.mp hp with hp1 | hp2
        · rw [hp1]
          exact sortPairsE_chain h1
        · exact ih h2 p hp2

theorem processActionsOut_sorted {acts : List (Cell × Trends.ActionData)}
    {res : List Trends.TrendAction × Option Trends.TotalPart}
    (h : Trends.processActionsOut acts = Except.ok res) :
    (∀ ta ∈ res.1, (∀ p ∈ ta.durations, List.Chain' pairPyLe p.2) ∧
      (∀ p ∈ ta.success, List.Chain' spairPyLe p.2)) ∧
    (∀ tp : Trends.TotalPart, res.2 = some tp →
      (∀ p ∈ tp.2.1, List.Chain' pairPyLe p.2) ∧
      (∀ p ∈ tp.2.2, List.Chain' spairPyLe p.2)) := by
  induction acts generalizing res with
  | nil =>
    rw [Trends.processActionsOut] at h
    cases h
    refine ⟨fun ta hta => absurd hta (List.not_mem_nil ta), fun tp htp => ?_⟩
    cases htp
  | cons hd rest ih =>
    obtain ⟨a, data⟩ := hd
    rw [Trends.processActionsOut] at h
    cases h1 : Trends.sortedDurs data with
    | error e => rw [h1] at h; cases h
    | ok adurs =>
      rw [h1] at h
      simp only at h
      cases h2 : Trends.processActionsOut rest with
      | error e => rw [h2] at h; cases h
      | ok res0 =>
        rw [h2] at h
        simp only at h
        obtain ⟨acts0, tot0⟩ := res0
        have ihs := ih h2
        have hdurs : ∀ p ∈ adurs, List.Chain' pairPyLe p.2 := by
          rw [Trends.sortedDurs] at h1
          exact sortDursList_sorted h1
        have hsucc : ∀ p ∈ [("success", Trends.sortSucc data.success)],
            List.Chain' spairPyLe p.2 := by
          intro p hp
          rw [List.mem_singleton.mp hp]
          exact sortSucc_chain data.success
        by_cases ha : a = Cell.str "total"
        · rw [if_pos ha] at h
          cases h
          refine ⟨ihs.1, ?_⟩
          intro tp htp
          cases tot0 with
          | some t0 =>
            simp only at htp
            rw [← Option.some.inj htp]
            exact ihs.2 t0 rfl
          | none =>
            simp only at htp
            rw [← Option.some.inj htp]
            exact ⟨hdurs, hsucc⟩
        · rw [if_neg ha] at h
          cases h
          refine ⟨?_, ihs.2⟩
          intro ta hta
          rcases List.mem_cons.mp hta with hta1 | hta2
          · rw [hta1]
            exact ⟨hdurs, hsucc⟩
          · exact ihs.1 ta hta2

theorem processGroup_sorted {g : Trends.Group} {t : Trends.Trend}
    (h : Trends.processGroup g = Except.ok t) :
    (∀ p ∈ t.durations, List.Chain' pairPyLe p.2) ∧
    (∀ p ∈ t.success, List.Chain' spairPyLe p.2) ∧
    (∀ ta ∈ t.actions, (∀ p ∈ ta.durations, List.Chain' pairPyLe p.2) ∧
      (∀ p ∈ ta.success, List.Chain' spairPyLe p.2)) := by
  rw [Trends.processGroup] at h
  simp only at h
  cases hmet : (splitDot g.name).get? 1 with
  | none => rw [hmet] at h; cases h
  | some met =>
    rw [hmet] at h
    simp only at h
    cases hpo : Trends.processActionsOut g.actions with
    | error e => rw [hpo] at h; cases h
    | ok res =>
      rw [hpo] at h
      simp only at h
      obtain ⟨acts, tot⟩ := res
      have hps := processActionsOut_sorted hpo
      cases tot with
      | none => cases h
      | some tp =>
        obtain ⟨len, durs, succ⟩ := tp
        simp only at h
        cases h
        have htp := hps.2 (len, durs, succ) rfl
        exact ⟨htp.1, htp.2, hps.1⟩

theorem insertTrend_mem {t u : Trends.Trend} {l : List Trends.Trend}
    (h : u ∈ Trends.insertTrend t l) : u = t ∨ u ∈ l := by
  induction l with
  | nil =>
    rw [Trends.insertTrend] at h
    exact Or.inl (List.mem_singleton.mp h)
  | cons b rest ih =>
    rw [Trends.insertTrend] at h
    by_cases hb : Trends.trendLtName b t = true
    · rw [if_pos hb] at h
      rcases List.mem_cons.mp h with h1 | h1
      · exact Or.inr (h1 ▸ List.mem_cons_self b rest)
      · rcases ih h1 with h2 | h2
        · exact Or.inl h2
        · exact Or.inr (List.mem_cons_of_mem _ h2)
    · rw [if_neg hb] at h
      rcases List.mem_cons.mp h with h1 | h1
      · exact Or.inl h1
      · exact Or.inr h1

theorem sortTrends_mem {u : Trends.Trend} {l : List Trends.Trend}
    (h : u ∈ Trends.sortTrends l) : u ∈ l := by
  induction l with
  | nil =>
    rw [Trends.sortTrends] at h
    cases h
  | cons t rest ih =>
    rw [Trends.sortTrends] at h
    rcases insertTrend_mem h with h1 | h1
    · exact h1 ▸ List.mem_cons_self t rest
    · exact List.mem_cons_of_mem _ (ih h1)

theorem processGroups_mem {st : Trends.Data} {ts : List Trends.Trend}
    (h : Trends.processGroups st = Except.ok ts) :
    ∀ t ∈ ts, ∃ p ∈ st, Trends.processGroup p.2 = Except.ok t := by
  induction st generalizing ts with
  | nil =>
    rw [Trends.processGroups] at h
    cases h
    intro t ht
    cases ht
  | cons kg rest ih =>
    obtain ⟨k, g⟩ := kg
    rw [Trends.processGroups] at h
    cases h1 : Trends.processGroup g with
    | error e => rw [h1] at h; cases h
    | ok t0 =>
      rw [h1] at h
      simp only at h
      cases h2 : Trends.processGroups rest with
      | error e => rw [h2] at h; cases h
      | ok ts0 =>
        rw [h2] at h
        simp only at h
        cases h
        intro t ht
        rcases List.mem_cons.mp ht with ht1 | ht2
        · exact ⟨(k, g), List.mem_cons_self _ _, ht1 ▸ h1⟩
        · obtain ⟨p, hp, hpt⟩ := ih h2 t ht2
          exact ⟨p, List.mem_cons_of_mem _ hp, hpt⟩

theorem processGroups_all_ok {st : Trends.Data} {ts : List Trends.Trend}
    (h : Trends.processGroups st = Except.ok ts) :
    ∀ p ∈ st, ∃ t, Trends.processGroup p.2 = Except.ok t := by
  induction st generalizing ts with
  | nil =>
    intro p hp
    cases hp
  | cons kg rest ih =>
    obtain ⟨k, g⟩ := kg
    rw [Trends.processGroups] at h
    cases h1 : Trends.processGroup g with
    | error e => rw [h1] at h; cases h
    | ok t0 =>
      rw [h1] at h
      simp only at h
      cases h2 : Trends.processGroups rest with
      | error e => rw [h2] at h; cases h
      | ok ts0 =>
        intro p hp
        rcases List.mem_cons.mp hp with hp1 | hp2
        · exact ⟨t0, hp1 ▸ h1⟩
        · exact ih h2 p hp2

theorem alookup_mem {α β : Type} [DecidableEq α] {l : List (α × β)} {a : α} {b : β}
    (h : alookup l a = some b) : (a, b) ∈ l := by
  induction l with
  | nil => cases h
  | cons kv rest ih =>
    obtain ⟨k, v⟩ := kv
    rw [alookup] at h
    by_cases hk : k = a
    · rw [if_pos hk] at h
      rw [← hk, ← Option.some.inj h]
      exact List.mem_cons_self _ _
    · rw [if_neg hk] at h
      exact List.mem_cons_of_mem _ (ih h)

/-! ### Claim C3 -/

/-- C3 counterexample: with two folds at the same timestamp whose success
values arrive as `2` then `1`, the stored series is `[(1000, 2), (1000, 1)]`
in insertion order, but `get_data` emits `[(1000, 1), (1000, 2)]`: entries
with equal timestamps are reordered by value, so original insertion order is
not preserved. -/
theorem c3_counterexample :
    Trends.add_result statSt1 (statRes "a.b" (Value.str "cfg") 1 "1%" (Cell.num 5)) =
      Except.ok c3st ∧
    ((alookup c3st "cfg").map (fun g => (alookup g.actions (Cell.str "total")).map
      (fun ad => ad.success))) = some (some [(1000, (2 : ℚ)), (1000, 1)]) ∧
    (Except.map (fun out => out.map (fun t => t.success)) (Trends.get_data c3st)) =
      Except.ok [[("success", [(1000, (1 : ℚ)), (1000, 2)])]] :=
  ⟨by decide, by decide, by decide⟩

/-- C3 amended: in every successful `get_data` output, every duration
sub-series and every success series (both group-level and per-action) is
sorted with timestamps ascending; entries with equal timestamps are ordered
by comparing their values (Python tuple comparison), not by original
insertion order. -/
theorem c3_series_sorted (st : Trends.Data) (out : List Trends.Trend)
    (h : Trends.get_data st = Except.ok out) :
    ∀ t ∈ out,
      (∀ p ∈ t.durations,
        List.Chain' (fun x y => x.1 ≤ y.1) p.2 ∧ List.Chain' pairPyLe p.2) ∧
      (∀ p ∈ t.success,
        List.Chain' (fun x y => x.1 ≤ y.1) p.2 ∧ List.Chain' spairPyLe p.2) ∧
      (∀ ta ∈ t.actions,
        (∀ p ∈ ta.durations,
          List.Chain' (fun x y => x.1 ≤ y.1) p.2 ∧ List.Chain' pairPyLe p.2) ∧
        (∀ p ∈ ta.success,
          List.Chain' (fun x y => x.1 ≤ y.1) p.2 ∧ List.Chain' spairPyLe p.2)) := by
  rw [Trends.get_data] at h
  cases hpg : Trends.processGroups st with
  | error e => rw [hpg] at h; cases h
  | ok ts =>
    rw [hpg] at h
    simp only at h
    cases h
    intro t ht
    obtain ⟨p, _, hpt⟩ := processGroups_mem hpg t (sortTrends_mem ht)
    obtain ⟨hd, hs, hact⟩ := processGroup_sorted hpt
    refine ⟨?_, ?_, ?_⟩
    · intro q hq
      exact ⟨(hd q hq).imp (fun a b => pairPyLe_fst_le), hd q hq⟩
    · intro q hq
      exact ⟨(hs q hq).imp (fun a b => spairPyLe_fst_le), hs q hq⟩
    · intro ta hta
      refine ⟨?_, ?_⟩
      · intro q hq
        exact ⟨((hact ta hta).1 q hq).imp (fun a b => pairPyLe_fst_le),
          (hact ta hta).1 q hq⟩
      · intro q hq
        exact ⟨((hact ta hta).2 q hq).imp (fun a b => spairPyLe_fst_le),
          (hact ta hta).2 q hq⟩

/-- Witness for C3's amended claim: the success series of the concrete
two-fold state is emitted timestamp-sorted. -/
theorem c3_series_sorted_witness :
    List.Chain' (fun (x y : Int × ℚ) => x.1 ≤ y.1) [((1000 : Int), (1 : ℚ)), (1000, 2)] ∧
    List.Chain' spairPyLe [((1000 : Int), (1 : ℚ)), (1000, 2)] :=
  (c3_series_sorted c3st c3out (by decide) c3t0 (by decide)).2.1
    ("success", [(1000, 1), (1000, 2)]) (by decide)

/-! ### Claims C9 and C10 -/

theorem processActionsOut_total_mem {acts : List (Cell × Trends.ActionData)}
    {res : List Trends.TrendAction × Option Trends.TotalPart}
    (h : Trends.processActionsOut acts = Except.ok res) :
    ∀ tp, res.2 = some tp → ∃ p ∈ acts, p.1 = Cell.str "total" := by
  induction acts generalizing res with
  | nil =>
    rw [Trends.processActionsOut] at h
    cases h
    intro tp htp
    cases htp
  | cons hd rest ih =>
    obtain ⟨a, data⟩ := hd
    rw [Trends.processActionsOut] at h
    cases h1 : Trends.sortedDurs data with
    | error e => rw [h1] at h; cases h
    | ok adurs =>
      rw [h1] at h
      simp only at h
      cases h2 : Trends.processActionsOut rest with
      | error e => rw [h2] at h; cases h
      | ok res0 =>
        rw [h2] at h
        simp only at h
        obtain ⟨acts0, tot0⟩ := res0
        by_cases ha : a = Cell.str "total"
        · intro tp htp
          exact ⟨(a, data), List.mem_cons_self _ _, ha⟩
        · rw [if_neg ha] at h
          cases h
          intro tp htp
          obtain ⟨p, hp, hpt⟩ := ih h2 tp htp
          exact ⟨p, List.mem_cons_of_mem _ hp, hpt⟩

theorem processGroup_ok_shape {g : Trends.Group} {t : Trends.Trend}
    (h : Trends.processGroup g = Except.ok t) :
    ((splitDot g.name).get? 1).isSome ∧ ∃ p ∈ g.actions, p.1 = Cell.str "total" := by
  rw [Trends.processGroup] at h
  simp only at h
  cases hmet : (splitDot g.name).get? 1 with
  | none => rw [hmet] at h; cases h
  | some met =>
    rw [hmet] at h
    simp only at h
    cases hpo : Trends.processActionsOut g.actions with
    | error e => rw [hpo] at h; cases h
    | ok res =>
      rw [hpo] at h
      simp only at h
      obtain ⟨acts, tot⟩ := res
      cases tot with
      | none => cases h
      | some tp =>
        exact ⟨rfl, processActionsOut_total_mem hpo tp rfl⟩

/-- C9: `get_data` requires every group to contain an action named
`"total"`: if the state holds a group none of whose actions is `"total"`,
`get_data` fails (with the missing-key error on the group-level `durations`,
or an earlier error) instead of returning a rendered output. -/
theorem c9_total_action_required (st : Trends.Data) (k : String) (g : Trends.Group)
    (hk : alookup st k = some g)
    (hno : ∀ p ∈ g.actions, p.1 ≠ Cell.str "total") :
    ∀ out, Trends.get_data st ≠ Except.ok out := by
  intro out hout
  rw [Trends.get_data] at hout
  cases hpg : Trends.processGroups st with
  | error e => rw [hpg] at hout; cases hout
  | ok ts =>
    obtain ⟨t, ht⟩ := processGroups_all_ok hpg (k, g) (alookup_mem hk)
    obtain ⟨p, hp, hpt⟩ := (processGroup_ok_shape ht).2
    exact hno p hp hpt

/-- C10: `get_data` requires every group's name to contain at least one `"."`
separator: if the state holds a group whose name yields no second `"."`
segment, `get_data` fails (with the index error from `split(".")[1]`) instead
of emitting a rendered group. -/
theorem c10_dotted_name_required (st : Trends.Data) (k : String) (g : Trends.Group)
    (hk : alookup st k = some g)
    (hname : (splitDot g.name).get? 1 = Option.none) :
    ∀ out, Trends.get_data st ≠ Except.ok out := by
  intro out hout
  rw [Trends.get_data] at hout
  cases hpg : Trends.processGroups st with
  | error e => rw [hpg] at hout; cases hout
  | ok ts =>
    obtain ⟨t, ht⟩ := processGroups_all_ok hpg (k, g) (alookup_mem hk)
    have h1 := (processGroup_ok_shape ht).1
    rw [hname] at h1
    cases h1

/-- Witness for C9: `get_data` on the total-less state cannot succeed. -/
theorem c9_total_action_required_witness :
    Trends.get_data stNoTotal ≠ Except.ok [] :=
  c9_total_action_required stNoTotal "k"
    (Trends.Group.mk [(Cell.str "other_action", Trends.ActionData.empty)] 0 "a.b" "cfg")
    (by decide)
    (by
      intro p hp
      rw [List.mem_singleton.mp hp]
      decide)
    []

/-- Witness for C10: `get_data` on the dot-less-name state cannot succeed. -/
theorem c10_dotted_name_required_witness :
    Trends.get_data stNoDot ≠ Except.ok [] :=
  c10_dotted_name_required stNoDot "k"
    (Trends.Group.mk [(Cell.str "total", Trends.ActionData.empty)] 0 "ab" "cfg")
    (by decide) (by decide) []

/-! ### Claim C7 -/

/-- C7: non-numeric samples are tolerated.  A Success cell that does not
parse as a number yields success percent `0` during the fold (in general, and
`"n/a"` in particular does not parse); a non-numeric duration cell carries no
numeric value, so the group-level reducers skip it; and the concrete run with
`"n/a"` Success and a `"n/a"` max duration folds and finalizes without
raising, stores success `0`, and computes `stat` only from the numeric
duration samples `1, 2, 3, 4, 6` (min `1`, max `6`, avg `16/5` — the `"n/a"`
in the max series is excluded). -/
theorem c7_non_numeric_tolerance :
    (∀ (rd : List (String × Cell)) (s : String),
      alookup rd "Success" = some (Cell.str s) →
      pyFloat (rstripPercent s) = Option.none →
      Trends.successValue rd = Except.ok 0) ∧
    pyFloat (rstripPercent "n/a") = Option.none ∧
    (∀ s : String, Trends.cellNum (Cell.str s) = Option.none) ∧
    Trends.add_result [] naRes = Except.ok naSt ∧
    ((alookup naSt "cfg").map (fun g => (alookup g.actions (Cell.str "total")).map
      (fun ad => ad.success))) = some (some [(1000, (0 : ℚ))]) ∧
    (Except.map (fun out => out.map (fun t => (t.stat_min, t.stat_max, t.stat_avg)))
      (Trends.get_data naSt)) = Except.ok [(some 1, some 6, some (mkRat 16 5))] := by
  refine ⟨?_, by decide, fun s => rfl, by decide, by decide, by decide⟩
  intro rd s h1 h2
  rw [Trends.successValue, Trends.lookCol, h1]
  simp only
  rw [h2]

/-- Witness for C7's general tolerance clause at the `"n/a"` sentinel. -/
theorem c7_non_numeric_tolerance_witness :
    Trends.successValue [("Success", Cell.str "n/a")] = Except.ok 0 :=
  c7_non_numeric_tolerance.1 [("Success", Cell.str "n/a")] "n/a" (by decide) (by decide)

/-! ### The evaluable rational arithmetic agrees with the standard one -/

theorem qmul_eq_mul (a b : ℚ) : qmul a b = a * b := by
  rw [qmul, Rat.mkRat_eq_div]
  push_cast
  rw [← div_mul_div_comm, Rat.num_div_den, Rat.num_div_den]

theorem qadd_eq_add (a b : ℚ) : qadd a b = a + b := by
  rw [qadd, Rat.mkRat_eq_div]
  have ha : (a.den : ℚ) ≠ 0 := by
    exact_mod_cast a.den_nz
  have hb : (b.den : ℚ) ≠ 0 := by
    exact_mod_cast b.den_nz
  have h1 : (a.num : ℚ) = a * (a.den : ℚ) := (div_eq_iff ha).mp (Rat.num_div_den a)
  have h2 : (b.num : ℚ) = b * (b.den : ℚ) := (div_eq_iff hb).mp (Rat.num_div_den b)
  rw [eq_comm]
  push_cast
  rw [eq_div_iff (mul_ne_zero ha hb), h1, h2]
  ring

theorem qmin_eq_min (a b : ℚ) : qmin a b = min a b := by
  rw [qmin]
  by_cases h : Rat.blt a b = true
  · rw [if_pos h, eq_comm]
    exact min_eq_left (le_of_lt h)
  · rw [if_neg h, eq_comm]
    exact min_eq_right (not_lt.mp h)

theorem qmax_eq_max (a b : ℚ) : qmax a b = max a b := by
  rw [qmax]
  by_cases h : Rat.blt a b = true
  · rw [if_pos h, eq_comm]
    exact max_eq_right (le_of_lt h)
  · rw [if_neg h, eq_comm]
    exact max_eq_left (not_lt.mp h)
